import Mathlib

/-!
Verification of the Tipper-Calculator dispatch core.

The solver (`calculationResult`) and the Gantt schedule builder are embedded
over ℚ: every numeric literal of the source is taken at its exact rational
value, JavaScript's `Infinity` sentinel for `lorriesNeeded` is encoded as
`none`, and the unbounded achievable-throughput `while` loop is run on an
explicit fuel that the termination theorem shows to be sufficient.
-/

namespace Tipper

/-- Job parameters (`CalculatorInputs` in `types.ts`). -/
structure CalculatorInputs where
  material : ℚ
  distance : ℚ
  time : ℚ
  loadTime : ℚ
  startTime : String := ""
  pricePerTonne : ℚ
  costPerLorry : ℚ
deriving DecidableEq

/-- Fleet parameters (`AdvancedSettings` in `types.ts`). -/
structure AdvancedSettings where
  lorryCapacity : ℚ
  avgSpeed : ℚ
  tipTime : ℚ
deriving DecidableEq

/-- Solver output (`CalculationResult` in `types.ts`).  `lorriesNeeded = none`
encodes the `Infinity` sentinel; optional fields absent in a branch are
`none`. -/
structure CalculationResult where
  lorriesNeeded : Option ℕ
  totalTripsNeeded : ℤ
  timePerTrip : ℚ
  tripsPerLorry : ℚ
  totalValue : ℚ
  totalCost : ℚ
  achievableMaterial : Option ℚ := none
  achievableValue : Option ℚ := none
  requiredTime : Option ℚ := none
deriving DecidableEq

/-- The scalar state of one dispatch simulation: per-lorry next-available
times (`lorriesNextAvailableTime`) and `loadingBayFreeAt`. -/
structure SimState where
  lorries : List ℚ
  bay : ℚ
deriving DecidableEq

/-- The decisions taken for one dispatched trip. -/
structure TripRec where
  lorryIdx : ℕ
  loadStart : ℚ
  loadEnd : ℚ
deriving DecidableEq

/-- `Math.min(...xs)` for a nonempty list (the simulations never take the
minimum of an empty array). -/
def listMin : List ℚ → ℚ
  | [] => 0
  | x :: xs => xs.foldl min x

/-- One iteration of the dispatch loop (lines 78-92 of the solver): pick the
first lorry attaining the minimum next-available time (`Math.min` +
`indexOf`), start loading as soon as both the lorry and the bay are free, and
send the lorry on its round trip. -/
def dispatchOne (loadH travelH tipH : ℚ) (s : SimState) : SimState × TripRec :=
  let m := listMin s.lorries
  let idx := s.lorries.findIdx fun x => decide (x = m)
  let loadStart := max m s.bay
  let loadEnd := loadStart + loadH
  let ret := loadEnd + travelH + tipH + travelH
  (⟨s.lorries.set idx ret, loadEnd⟩, ⟨idx, loadStart, loadEnd⟩)

/-- The feasibility check for one candidate fleet size: dispatch `k` trips,
failing as soon as a load would end after the deadline
(`loadEndTime > time + 0.0001`). -/
def feasRun (loadH travelH tipH dl : ℚ) : ℕ → SimState → Bool
  | 0, _ => true
  | k + 1, s =>
    let p := dispatchOne loadH travelH tipH s
    if dl < p.2.loadEnd then false else feasRun loadH travelH tipH dl k p.1

/-- Iterate the dispatch step `k` times (no deadline check). -/
def simSteps (loadH travelH tipH : ℚ) : ℕ → SimState → SimState
  | 0, s => s
  | k + 1, s => simSteps loadH travelH tipH k (dispatchOne loadH travelH tipH s).1

/-- Fresh simulation state for `n` lorries: `new Array(n).fill(0)`, bay free
at 0. -/
def initState (n : ℕ) : SimState := ⟨List.replicate n 0, 0⟩

/-- Hours needed to load one lorry (`loadTime / 60`). -/
def loadHours (inputs : CalculatorInputs) : ℚ := inputs.loadTime / 60

/-- One-way travel time in hours (`distance / avgSpeed`). -/
def travelHours (inputs : CalculatorInputs) (adv : AdvancedSettings) : ℚ :=
  inputs.distance / adv.avgSpeed

/-- Tipping time in hours (`tipTime / 60`). -/
def tipHours (adv : AdvancedSettings) : ℚ := adv.tipTime / 60

/-- The tolerated load-end deadline, `time + 0.0001` hours. -/
def deadline (inputs : CalculatorInputs) : ℚ := inputs.time + 1 / 10000

/-- `totalTripsNeeded = Math.ceil(material / lorryCapacity)`. -/
def tripsRequired (inputs : CalculatorInputs) (adv : AdvancedSettings) : ℤ :=
  ⌈inputs.material / adv.lorryCapacity⌉

/-- The trip count as the number of loop iterations it drives. -/
def tripsReqNat (inputs : CalculatorInputs) (adv : AdvancedSettings) : ℕ :=
  (tripsRequired inputs adv).toNat

/-- The fleet-size search ceiling, `Math.max(50, totalTripsNeeded)`. -/
def maxLorries (inputs : CalculatorInputs) (adv : AdvancedSettings) : ℕ :=
  max 50 (tripsReqNat inputs adv)

/-- `timePerTrip = roundTripTimeHours + loadTimeHours + tipTimeHours`. -/
def timePerTripCalc (inputs : CalculatorInputs) (adv : AdvancedSettings) : ℚ :=
  travelHours inputs adv * 2 + loadHours inputs + tipHours adv

/-- Feasibility of one candidate fleet size `n` for the given parameters. -/
def feasible (inputs : CalculatorInputs) (adv : AdvancedSettings) (n : ℕ) : Bool :=
  feasRun (loadHours inputs) (travelHours inputs adv) (tipHours adv) (deadline inputs)
    (tripsReqNat inputs adv) (initState n)

/-- The outer fleet-size search (`for numLorries = 1..maxLorriesToTest`,
stopping at the first feasible size). -/
def fleetSearch (inputs : CalculatorInputs) (adv : AdvancedSettings) : Option ℕ :=
  (List.range' 1 (maxLorries inputs adv)).find? fun n => feasible inputs adv n

/-- The degenerate-value guard
(`lorryCapacity <= 0 || avgSpeed <= 0 || time <= 0 || loadTime <= 0`). -/
def degenerate (inputs : CalculatorInputs) (adv : AdvancedSettings) : Bool :=
  decide (adv.lorryCapacity ≤ 0) || decide (adv.avgSpeed ≤ 0) ||
    decide (inputs.time ≤ 0) || decide (inputs.loadTime ≤ 0)

/-- The all-zero result returned for degenerate inputs. -/
def degenerateResult : CalculationResult :=
  { lorriesNeeded := some 0, totalTripsNeeded := 0, timePerTrip := 0, tripsPerLorry := 0,
    totalValue := 0, totalCost := 0, achievableMaterial := some 0, achievableValue := some 0 }

/-- The feasible-branch result (lines 101-105). -/
def feasibleResult (inputs : CalculatorInputs) (adv : AdvancedSettings) (n : ℕ) :
    CalculationResult :=
  { lorriesNeeded := some n,
    totalTripsNeeded := tripsRequired inputs adv,
    timePerTrip := timePerTripCalc inputs adv,
    tripsPerLorry := if 0 < n then (tripsRequired inputs adv : ℚ) / (n : ℚ) else 0,
    totalValue := inputs.material * inputs.pricePerTonne,
    totalCost := (n : ℚ) * inputs.costPerLorry }

/-- The achievable-throughput admission loop (the `while (true)` at lines
112-126), run on explicit fuel: it counts the trips whose load end stays
within the deadline and stops at the first that does not. -/
def achLoop (loadH travelH tipH dl : ℚ) : ℕ → SimState → ℕ
  | 0, _ => 0
  | fuel + 1, s =>
    let p := dispatchOne loadH travelH tipH s
    if dl < p.2.loadEnd then 0 else achLoop loadH travelH tipH dl fuel p.1 + 1

/-- Fuel sufficient for `achLoop`: every admitted trip pushes the bay-free
time up by at least `loadHours`, so at most `⌈deadline / loadHours⌉` trips
can be admitted. -/
def achFuel (inputs : CalculatorInputs) : ℕ :=
  (⌈deadline inputs / loadHours inputs⌉).toNat + 1

/-- Trips admitted before the deadline at the ceiling fleet size. -/
def achievableTrips (inputs : CalculatorInputs) (adv : AdvancedSettings) : ℕ :=
  achLoop (loadHours inputs) (travelHours inputs adv) (tipHours adv) (deadline inputs)
    (achFuel inputs) (initState (maxLorries inputs adv))

/-- The required-time loop (lines 129-145): dispatch the full trip count with
no deadline check and record the load end of the last trip. -/
def requiredLoop (loadH travelH tipH : ℚ) : ℕ → SimState → ℚ → ℚ
  | 0, _, acc => acc
  | k + 1, s, acc =>
    let p := dispatchOne loadH travelH tipH s
    requiredLoop loadH travelH tipH k p.1 (if k = 0 then p.2.loadEnd else acc)

/-- The time required to load the full target at the ceiling fleet size. -/
def requiredTimeCalc (inputs : CalculatorInputs) (adv : AdvancedSettings) : ℚ :=
  requiredLoop (loadHours inputs) (travelHours inputs adv) (tipHours adv)
    (tripsReqNat inputs adv) (initState (maxLorries inputs adv)) 0

/-- The infeasible-branch result (lines 150-160). -/
def infeasibleResult (inputs : CalculatorInputs) (adv : AdvancedSettings) :
    CalculationResult :=
  { lorriesNeeded := none,
    totalTripsNeeded := tripsRequired inputs adv,
    timePerTrip := timePerTripCalc inputs adv,
    tripsPerLorry := 0,
    totalValue := inputs.material * inputs.pricePerTonne,
    totalCost := 0,
    achievableMaterial := some ((achievableTrips inputs adv : ℚ) * adv.lorryCapacity),
    achievableValue :=
      some ((achievableTrips inputs adv : ℚ) * adv.lorryCapacity * inputs.pricePerTonne),
    requiredTime :=
      if inputs.time < requiredTimeCalc inputs adv then some (requiredTimeCalc inputs adv)
      else none }

/-- The solver (`calculationResult` in the app component): degenerate guard,
minimum-fleet search, then the feasible or infeasible result. -/
def calculationResult (inputs : CalculatorInputs) (adv : AdvancedSettings) :
    CalculationResult :=
  if degenerate inputs adv then degenerateResult
  else
    match fleetSearch inputs adv with
    | some n => feasibleResult inputs adv n
    | none => infeasibleResult inputs adv

/-- Solver simulation state after `k` dispatched trips with fleet size `n`. -/
def solverStateAt (inputs : CalculatorInputs) (adv : AdvancedSettings) (n k : ℕ) : SimState :=
  simSteps (loadHours inputs) (travelHours inputs adv) (tipHours adv) k (initState n)

/-- The decisions the solver takes for trip `k` with fleet size `n`. -/
def solverTripAt (inputs : CalculatorInputs) (adv : AdvancedSettings) (n k : ℕ) : TripRec :=
  (dispatchOne (loadHours inputs) (travelHours inputs adv) (tipHours adv)
    (solverStateAt inputs adv n k)).2

/-- Load end of the trip the achievable-throughput loop would dispatch as its
`i`-th admission attempt. -/
def achEnd (inputs : CalculatorInputs) (adv : AdvancedSettings) (i : ℕ) : ℚ :=
  (solverTripAt inputs adv (maxLorries inputs adv) i).loadEnd

/-- Phase kinds of the Gantt chart (`TripPhase.type` in `GanttChart.tsx`). -/
inductive PhaseType where
  | loading
  | travel
  | tipping
deriving DecidableEq

/-- One phase bar (`TripPhase` in `GanttChart.tsx`); `finish` renders the
source's `end` field, a Lean keyword. -/
structure TripPhase where
  start : ℚ
  finish : ℚ
  type : PhaseType
deriving DecidableEq

/-- A lorry during schedule construction: id, recorded trips, and
`nextAvailableTime`. -/
structure BLorry where
  id : ℕ
  trips : List (List TripPhase)
  nextAvailableTime : ℚ
deriving DecidableEq

/-- State of the schedule-construction loop: the lorry records plus
`loadingBayFreeAt`. -/
structure BState where
  lorries : List BLorry
  bay : ℚ
deriving DecidableEq

/-- Placeholder lorry for the (never-taken) out-of-range array access. -/
def defaultBLorry : BLorry := ⟨0, [], 0⟩

/-- The next-available times of the lorry records. -/
def bTimes (ls : List BLorry) : List ℚ := ls.map fun l => l.nextAvailableTime

/-- `findIndex(l => l.nextAvailableTime === earliestLorryTime)`. -/
def bChoice (ls : List BLorry) : ℕ :=
  ls.findIdx fun l => decide (l.nextAvailableTime = listMin (bTimes ls))

/-- One iteration of the schedule-construction loop (lines 63-84 of
`GanttChart.tsx`): same dispatch rule as the solver, but the chosen lorry also
records a 4-phase trip. -/
def builderStep (loadH travelH tipH : ℚ) (s : BState) : BState :=
  let idx := bChoice s.lorries
  let lo := s.lorries.getD idx defaultBLorry
  let tripStartTime := max lo.nextAvailableTime s.bay
  let loadEnd := tripStartTime + loadH
  let travelToTipEnd := loadEnd + travelH
  let tipEnd := travelToTipEnd + tipH
  let tripEndTime := tipEnd + travelH
  let tripPhases : List TripPhase :=
    [⟨tripStartTime, loadEnd, PhaseType.loading⟩,
     ⟨loadEnd, travelToTipEnd, PhaseType.travel⟩,
     ⟨travelToTipEnd, tipEnd, PhaseType.tipping⟩,
     ⟨tipEnd, tripEndTime, PhaseType.travel⟩]
  ⟨s.lorries.set idx
      { lo with trips := lo.trips ++ [tripPhases], nextAvailableTime := tripEndTime },
    loadEnd⟩

/-- Iterate the schedule-construction step `k` times. -/
def builderSteps (loadH travelH tipH : ℚ) : ℕ → BState → BState
  | 0, s => s
  | k + 1, s => builderSteps loadH travelH tipH k (builderStep loadH travelH tipH s)

/-- Initial lorry records: ids `1..n`, no trips, available at 0. -/
def builderInit (n : ℕ) : BState :=
  ⟨(List.range n).map fun i => ⟨i + 1, [], 0⟩, 0⟩

/-- The post-processing of lines 87-94: drop a lorry's final phase when it is
the return-travel leg of its last trip. -/
def trimLorry (lo : BLorry) : BLorry :=
  match lo.trips.getLast? with
  | none => lo
  | some lastTrip =>
    match lastTrip.getLast? with
    | none => lo
    | some ph =>
      if ph.type = PhaseType.travel then
        { lo with trips := lo.trips.dropLast ++ [lastTrip.dropLast] }
      else lo

/-- The schedule rows handed to the rendering layer (`LorrySchedule` without
the scratch `nextAvailableTime`). -/
structure LorrySchedule where
  id : ℕ
  trips : List (List TripPhase)
deriving DecidableEq

/-- The schedule construction of `GanttChart.tsx` (the `schedules` part of the
`useMemo` at lines 40-113): empty when the solve was not feasible, otherwise
the full dispatch re-run, trimmed, projected to `(id, trips)` and sorted by
id. -/
def ganttSchedules (inputs : CalculatorInputs) (adv : AdvancedSettings)
    (result : CalculationResult) : List LorrySchedule :=
  match result.lorriesNeeded with
  | none => []
  | some n =>
    if n = 0 then []
    else
      let final := builderSteps (loadHours inputs) (travelHours inputs adv) (tipHours adv)
        result.totalTripsNeeded.toNat (builderInit n)
      (((final.lorries.map trimLorry).map fun l => LorrySchedule.mk l.id l.trips).mergeSort
        fun a b => a.id ≤ b.id)

/-- Builder state after `k` dispatched trips for fleet size `n`. -/
def builderStateAt (inputs : CalculatorInputs) (adv : AdvancedSettings) (n k : ℕ) : BState :=
  builderSteps (loadHours inputs) (travelHours inputs adv) (tipHours adv) k (builderInit n)

/-- The index the builder chooses for trip `k`. -/
def bChoiceAt (inputs : CalculatorInputs) (adv : AdvancedSettings) (n k : ℕ) : ℕ :=
  bChoice (builderStateAt inputs adv n k).lorries

/-- The load start the builder computes for trip `k`
(`Math.max(nextAvailableLorry.nextAvailableTime, loadingBayFreeAt)`). -/
def bLoadStartAt (inputs : CalculatorInputs) (adv : AdvancedSettings) (n k : ℕ) : ℚ :=
  max ((builderStateAt inputs adv n k).lorries.getD (bChoiceAt inputs adv n k)
    defaultBLorry).nextAvailableTime (builderStateAt inputs adv n k).bay

/-- The load end the builder computes for trip `k`. -/
def bLoadEndAt (inputs : CalculatorInputs) (adv : AdvancedSettings) (n k : ℕ) : ℚ :=
  bLoadStartAt inputs adv n k + loadHours inputs

/-- The loading-phase bars among a trip list's phases. -/
def phOfTrips (ts : List (List TripPhase)) : List TripPhase :=
  ts.flatten.filter fun p => decide (p.type = PhaseType.loading)

/-- All loading-phase bars of a schedule, in per-lorry order. -/
def loadingPhases (ss : List LorrySchedule) : List TripPhase :=
  ss.flatMap fun s => phOfTrips s.trips

/-- All loading-phase bars of the schedule-construction state. -/
def loadingPhasesB (ls : List BLorry) : List TripPhase :=
  ls.flatMap fun lo => phOfTrips lo.trips

/-- The scalar shadow of the schedule-construction state: exactly the
solver's simulation state. -/
def projB (s : BState) : SimState := ⟨bTimes s.lorries, s.bay⟩

/-- Two phase bars occupy disjoint half-open time intervals. -/
def phaseDisjoint (p q : TripPhase) : Prop := p.finish ≤ q.start ∨ q.finish ≤ p.start

instance (p q : TripPhase) : Decidable (phaseDisjoint p q) := by
  unfold phaseDisjoint
  exact inferInstance

/-- Boolean pairwise disjointness of a list of phase bars. -/
def pairwiseDisjointB : List TripPhase → Bool
  | [] => true
  | p :: ps => (ps.all fun q => decide (phaseDisjoint p q)) && pairwiseDisjointB ps

/-- A full 4-phase trip: loading, outbound travel, tipping, return travel,
contiguous. -/
def phase4OK (t : List TripPhase) : Bool :=
  match t with
  | [a, b, c, d] =>
    decide (a.type = PhaseType.loading) && decide (b.type = PhaseType.travel) &&
      decide (c.type = PhaseType.tipping) && decide (d.type = PhaseType.travel) &&
      decide (a.finish = b.start) && decide (b.finish = c.start) && decide (c.finish = d.start)
  | _ => false

/-- A trimmed final trip: loading, outbound travel, tipping, contiguous. -/
def phase3OK (t : List TripPhase) : Bool :=
  match t with
  | [a, b, c] =>
    decide (a.type = PhaseType.loading) && decide (b.type = PhaseType.travel) &&
      decide (c.type = PhaseType.tipping) &&
      decide (a.finish = b.start) && decide (b.finish = c.start)
  | _ => false

/-- Shape of one lorry's trip list after trimming: all trips are full 4-phase
trips except the last, whose return leg has been dropped. -/
def lorryTripsOK (ts : List (List TripPhase)) : Bool :=
  (ts.dropLast.all phase4OK) &&
    (match ts.getLast? with
     | none => true
     | some t => phase3OK t)

/-- Invariant of the schedule-construction loop after `k` dispatched trips
with fleet size `n`: lorry ids are `1..n` in order, `k` trips are recorded in
total, every recorded trip is a contiguous 4-phase trip, every recorded
loading phase ends by the current bay-free time, and the loading phases are
pairwise disjoint. -/
structure BuildInv (n k : ℕ) (s : BState) : Prop where
  ids : s.lorries.map (fun l => l.id) = List.range' 1 n
  tripsCount : (s.lorries.map fun l => l.trips.length).sum = k
  shapes : ∀ lo ∈ s.lorries, ∀ t ∈ lo.trips, phase4OK t = true
  bayBound : ∀ p ∈ loadingPhasesB s.lorries, p.finish ≤ s.bay
  disj : List.Pairwise phaseDisjoint (loadingPhasesB s.lorries)

/-- Number of entries of `l` that are at most `t` (a measure of how many
lorries are available by time `t`). -/
def countLE (t : ℚ) (l : List ℚ) : ℕ := (l.filter fun x => decide (x ≤ t)).length

/-- State `sa` (a run with more lorries) dominates state `sb`: at every time
`t` at least as many of its lorries are available, and its bay frees no
later. -/
def Dom (sa sb : SimState) : Prop :=
  sa.lorries ≠ [] ∧ sb.lorries ≠ [] ∧ sa.bay ≤ sb.bay ∧
    ∀ t, countLE t sb.lorries ≤ countLE t sa.lorries

/-- Concrete job parameters: one 20-tonne load, generous window. -/
def job1 : CalculatorInputs :=
  { material := 20, distance := 20, time := 3, loadTime := 10,
    pricePerTonne := 15, costPerLorry := 600 }

/-- Concrete job parameters: two 20-tonne loads, generous window. -/
def job2 : CalculatorInputs :=
  { material := 40, distance := 20, time := 3, loadTime := 10,
    pricePerTonne := 15, costPerLorry := 600 }

/-- Concrete job parameters that no fleet can satisfy: each load takes 2
hours but the window is 1 hour. -/
def jobStuck : CalculatorInputs :=
  { material := 40, distance := 20, time := 1, loadTime := 120,
    pricePerTonne := 15, costPerLorry := 600 }

/-- Concrete job parameters with a very short window. -/
def jobShort : CalculatorInputs :=
  { material := 20, distance := 20, time := 1 / 10, loadTime := 10,
    pricePerTonne := 15, costPerLorry := 600 }

/-- The default fleet parameters of the app. -/
def fleet1 : AdvancedSettings := { lorryCapacity := 20, avgSpeed := 31, tipTime := 5 }

/-- Fleet parameters with a degenerate (zero) capacity. -/
def fleetZero : AdvancedSettings := { lorryCapacity := 0, avgSpeed := 31, tipTime := 5 }

/-! ### Basic facts about the guards -/

theorem degenerate_eq_false_of_pos {inputs : CalculatorInputs} {adv : AdvancedSettings}
    (hc : 0 < adv.lorryCapacity) (hs : 0 < adv.avgSpeed) (ht : 0 < inputs.time)
    (hl : 0 < inputs.loadTime) : degenerate inputs adv = false := by
  simp [degenerate, hc.not_le, hs.not_le, ht.not_le, hl.not_le]

/-! ### C6: degenerate inputs give the all-zero result -/

/-- C6: whenever `lorryCapacity ≤ 0`, `avgSpeed ≤ 0`, `time ≤ 0` or
`loadTime ≤ 0`, the solver returns the all-zero result (the `Infinity`-free
record with every numeric field 0) whatever the other inputs are; being a
total function it raises nothing. -/
theorem degenerate_inputs_all_zero (inputs : CalculatorInputs) (adv : AdvancedSettings)
    (h : adv.lorryCapacity ≤ 0 ∨ adv.avgSpeed ≤ 0 ∨ inputs.time ≤ 0 ∨ inputs.loadTime ≤ 0) :
    calculationResult inputs adv =
      { lorriesNeeded := some 0, totalTripsNeeded := 0, timePerTrip := 0, tripsPerLorry := 0,
        totalValue := 0, totalCost := 0, achievableMaterial := some 0,
        achievableValue := some 0, requiredTime := none } := by
  have hd : degenerate inputs adv = true := by
    unfold degenerate
    rcases h with h | h | h | h <;> simp [h]
  simp [calculationResult, hd, degenerateResult]

theorem degenerate_inputs_all_zero_witness :
    (fleetZero.lorryCapacity ≤ 0 ∨ fleetZero.avgSpeed ≤ 0 ∨ job1.time ≤ 0 ∨
      job1.loadTime ≤ 0) ∧
    calculationResult job1 fleetZero =
      { lorriesNeeded := some 0, totalTripsNeeded := 0, timePerTrip := 0, tripsPerLorry := 0,
        totalValue := 0, totalCost := 0, achievableMaterial := some 0,
        achievableValue := some 0, requiredTime := none } :=
  ⟨Or.inl le_rfl, degenerate_inputs_all_zero job1 fleetZero (Or.inl le_rfl)⟩

/-! ### C5: the ε tolerance boundary of the deadline guard -/

/-- C5: the deadline guard accepts a trip whose load end is exactly
`time + 1e-4` (the run proceeds past it), and rejects a trip whose load end is
`time + 2e-4` (the run fails there), at any fleet state and remaining trip
count where such a load end arises. -/
theorem tolerance_boundary (loadH travelH tipH t : ℚ) (k₁ k₂ : ℕ) (s₁ s₂ : SimState)
    (h₁ : (dispatchOne loadH travelH tipH s₁).2.loadEnd = t + 1 / 10000)
    (h₂ : (dispatchOne loadH travelH tipH s₂).2.loadEnd = t + 2 / 10000) :
    feasRun loadH travelH tipH (t + 1 / 10000) (k₁ + 1) s₁ =
      feasRun loadH travelH tipH (t + 1 / 10000) k₁ (dispatchOne loadH travelH tipH s₁).1 ∧
    feasRun loadH travelH tipH (t + 1 / 10000) (k₂ + 1) s₂ = false := by
  constructor
  · rw [feasRun]
    simp only [h₁, lt_irrefl, if_false]
  · rw [feasRun]
    simp only [h₂, if_pos (show (t + 1 / 10000 : ℚ) < t + 2 / 10000 by linarith)]

unseal Rat.add Rat.mul Rat.inv Rat.sub in
theorem tolerance_boundary_witness :
    (dispatchOne (1 / 6) 0 0 ⟨[0], 0⟩).2.loadEnd = 1 / 6 - 1 / 10000 + 1 / 10000 ∧
    (dispatchOne (1 / 6) 0 0 ⟨[1 / 10000], 0⟩).2.loadEnd = 1 / 6 - 1 / 10000 + 2 / 10000 ∧
    (feasRun (1 / 6) 0 0 (1 / 6 - 1 / 10000 + 1 / 10000) 1 ⟨[0], 0⟩ =
       feasRun (1 / 6) 0 0 (1 / 6 - 1 / 10000 + 1 / 10000) 0 (dispatchOne (1 / 6) 0 0 ⟨[0], 0⟩).1 ∧
     feasRun (1 / 6) 0 0 (1 / 6 - 1 / 10000 + 1 / 10000) 1 ⟨[1 / 10000], 0⟩ = false) :=
  ⟨by decide, by decide,
    tolerance_boundary (1 / 6) 0 0 (1 / 6 - 1 / 10000) 0 0 ⟨[0], 0⟩ ⟨[1 / 10000], 0⟩
      (by decide) (by decide)⟩

/-! ### C2: the trip-count invariant -/

/-- C2: for positive material, capacity, speed, window and load duration, the
returned `totalTripsNeeded` is `⌈material / lorryCapacity⌉` and is at least
1. -/
theorem totalTrips_eq_ceil (inputs : CalculatorInputs) (adv : AdvancedSettings)
    (hm : 0 < inputs.material) (hc : 0 < adv.lorryCapacity) (hs : 0 < adv.avgSpeed)
    (ht : 0 < inputs.time) (hl : 0 < inputs.loadTime) :
    (calculationResult inputs adv).totalTripsNeeded =
      ⌈inputs.material / adv.lorryCapacity⌉ ∧
    1 ≤ (calculationResult inputs adv).totalTripsNeeded := by
  have hd : degenerate inputs adv = false := degenerate_eq_false_of_pos hc hs ht hl
  have hceil : 1 ≤ ⌈inputs.material / adv.lorryCapacity⌉ := by
    have : (0 : ℤ) < ⌈inputs.material / adv.lorryCapacity⌉ :=
      Int.ceil_pos.2 (div_pos hm hc)
    omega
  rcases hfind : fleetSearch inputs adv with _ | n <;>
    simp [calculationResult, hd, hfind, feasibleResult, infeasibleResult, tripsRequired, hceil]

unseal Rat.add Rat.mul Rat.inv Rat.sub in
theorem totalTrips_eq_ceil_witness :
    0 < job1.material ∧ 0 < fleet1.lorryCapacity ∧ 0 < fleet1.avgSpeed ∧ 0 < job1.time ∧
    0 < job1.loadTime ∧
    ((calculationResult job1 fleet1).totalTripsNeeded =
      ⌈job1.material / fleet1.lorryCapacity⌉ ∧
     1 ≤ (calculationResult job1 fleet1).totalTripsNeeded) :=
  ⟨by decide, by decide, by decide, by decide, by decide,
    totalTrips_eq_ceil job1 fleet1 (by decide) (by decide) (by decide) (by decide) (by decide)⟩

/-! ### Stepping lemmas for the dispatch simulation -/

theorem pos_of_not_degenerate {inputs : CalculatorInputs} {adv : AdvancedSettings}
    (h : degenerate inputs adv = false) :
    0 < adv.lorryCapacity ∧ 0 < adv.avgSpeed ∧ 0 < inputs.time ∧ 0 < inputs.loadTime := by
  simp only [degenerate, Bool.or_eq_false_iff, decide_eq_false_iff_not, not_le] at h
  exact ⟨h.1.1.1, h.1.1.2, h.1.2, h.2⟩

theorem dispatchOne_bay (loadH travelH tipH : ℚ) (s : SimState) :
    (dispatchOne loadH travelH tipH s).1.bay = max (listMin s.lorries) s.bay + loadH := rfl

theorem dispatchOne_loadEnd (loadH travelH tipH : ℚ) (s : SimState) :
    (dispatchOne loadH travelH tipH s).2.loadEnd = max (listMin s.lorries) s.bay + loadH := rfl

theorem dispatchOne_loadStart (loadH travelH tipH : ℚ) (s : SimState) :
    (dispatchOne loadH travelH tipH s).2.loadStart = max (listMin s.lorries) s.bay := rfl

theorem bay_le_dispatch_bay (loadH travelH tipH : ℚ) (s : SimState) :
    s.bay + loadH ≤ (dispatchOne loadH travelH tipH s).1.bay := by
  rw [dispatchOne_bay]
  have := le_max_right (listMin s.lorries) s.bay
  linarith

theorem simSteps_succ_back (loadH travelH tipH : ℚ) (k : ℕ) (s : SimState) :
    simSteps loadH travelH tipH (k + 1) s =
      (dispatchOne loadH travelH tipH (simSteps loadH travelH tipH k s)).1 := by
  induction k generalizing s with
  | zero => rfl
  | succ k ih =>
    rw [simSteps]
    rw [ih]
    rfl

theorem bay_simSteps_ge (loadH travelH tipH : ℚ) (k : ℕ) (s : SimState) :
    s.bay + k * loadH ≤ (simSteps loadH travelH tipH k s).bay := by
  induction k with
  | zero => simp [simSteps]
  | succ k ih =>
    rw [simSteps_succ_back]
    have h2 := bay_le_dispatch_bay loadH travelH tipH (simSteps loadH travelH tipH k s)
    push_cast
    push_cast at ih
    linarith

/-- The bay-free time after `k + 1` dispatches is the load end of trip `k`. -/
theorem bay_succ_eq_loadEnd (loadH travelH tipH : ℚ) (k : ℕ) (s : SimState) :
    (simSteps loadH travelH tipH (k + 1) s).bay =
      (dispatchOne loadH travelH tipH (simSteps loadH travelH tipH k s)).2.loadEnd := by
  rw [simSteps_succ_back, dispatchOne_bay, dispatchOne_loadEnd]

/-- The admission loop returns exactly the index of the first trip whose load
end falls past the deadline, provided the fuel reaches it. -/
theorem achLoop_eq_first_reject (loadH travelH tipH dl : ℚ) :
    ∀ (k fuel : ℕ) (s : SimState), k < fuel →
    (∀ i, i < k →
      (dispatchOne loadH travelH tipH (simSteps loadH travelH tipH i s)).2.loadEnd ≤ dl) →
    dl < (dispatchOne loadH travelH tipH (simSteps loadH travelH tipH k s)).2.loadEnd →
    achLoop loadH travelH tipH dl fuel s = k := by
  intro k
  induction k with
  | zero =>
    intro fuel s hfuel _ hrej
    obtain ⟨f, rfl⟩ : ∃ f, fuel = f + 1 := ⟨fuel - 1, by omega⟩
    rw [achLoop]
    simp only [simSteps] at hrej
    simp [hrej]
  | succ k ih =>
    intro fuel s hfuel hacc hrej
    obtain ⟨f, rfl⟩ : ∃ f, fuel = f + 1 := ⟨fuel - 1, by omega⟩
    have h0 : (dispatchOne loadH travelH tipH (simSteps loadH travelH tipH 0 s)).2.loadEnd ≤ dl :=
      hacc 0 (Nat.succ_pos k)
    simp only [simSteps] at h0
    rw [achLoop]
    simp only [not_lt.2 h0, if_false]
    have hstep : achLoop loadH travelH tipH dl f (dispatchOne loadH travelH tipH s).1 = k := by
      apply ih f ((dispatchOne loadH travelH tipH s).1) (by omega)
      · intro i hi
        exact hacc (i + 1) (by omega)
      · exact hrej
    omega

/-- A load end is at least `bay + (k+1) · loadH` after `k` admissions. -/
theorem loadEnd_simSteps_ge (loadH travelH tipH : ℚ) (k : ℕ) (s : SimState) :
    s.bay + (k + 1 : ℕ) * loadH ≤
      (dispatchOne loadH travelH tipH (simSteps loadH travelH tipH k s)).2.loadEnd := by
  rw [dispatchOne_loadEnd]
  have h1 := bay_simSteps_ge loadH travelH tipH k s
  have h2 := le_max_right (listMin (simSteps loadH travelH tipH k s).lorries)
    (simSteps loadH travelH tipH k s).bay
  push_cast
  push_cast at h1
  linarith

/-- If the first `k` admission attempts all stay within the deadline then
`k` is below the explicit fuel `⌈dl / loadH⌉.toNat + 1`. -/
theorem admitted_lt_fuel (loadH travelH tipH dl : ℚ) (hload : 0 < loadH) (k : ℕ) (n : ℕ)
    (hacc : ∀ i, i < k →
      (dispatchOne loadH travelH tipH (simSteps loadH travelH tipH i (initState n))).2.loadEnd
        ≤ dl) :
    k < (⌈dl / loadH⌉).toNat + 1 := by
  rcases Nat.eq_zero_or_pos k with hk | hk
  · omega
  · have hlast := hacc (k - 1) (by omega)
    have hge := loadEnd_simSteps_ge loadH travelH tipH (k - 1) (initState n)
    have hbay0 : (initState n).bay = 0 := rfl
    rw [hbay0] at hge
    have hk1 : (k - 1 : ℕ) + 1 = k := by omega
    rw [hk1] at hge
    have hkl : (k : ℚ) * loadH ≤ dl := by linarith
    have hdiv : (k : ℚ) ≤ dl / loadH := (le_div_iff₀ hload).2 hkl
    have hceil : (k : ℤ) ≤ ⌈dl / loadH⌉ := by
      have := hdiv.trans (Int.le_ceil (dl / loadH))
      exact_mod_cast this
    omega

theorem fleetSearch_eq_none (inputs : CalculatorInputs) (adv : AdvancedSettings)
    (hall : ((List.range' 1 (maxLorries inputs adv)).all
      fun n => ! feasible inputs adv n) = true) : fleetSearch inputs adv = none := by
  rw [fleetSearch, List.find?_eq_none]
  intro n hn
  have := List.all_eq_true.1 hall n hn
  simp at this
  simp [this]

/-! ### C7: infeasibility is a normal, reported outcome -/

/-- C7: when every fleet size up to the search ceiling fails, the solver still
returns a result: `lorriesNeeded` is the infeasible sentinel, `totalCost` is
0, `totalValue` is the full target value `material × pricePerTonne`, and the
achievable-throughput fields are populated. -/
theorem infeasible_sentinel (inputs : CalculatorInputs) (adv : AdvancedSettings)
    (hnd : degenerate inputs adv = false)
    (hall : ((List.range' 1 (maxLorries inputs adv)).all
      fun n => ! feasible inputs adv n) = true) :
    (calculationResult inputs adv).lorriesNeeded = none ∧
    (calculationResult inputs adv).totalCost = 0 ∧
    (calculationResult inputs adv).totalValue = inputs.material * inputs.pricePerTonne ∧
    (calculationResult inputs adv).achievableMaterial.isSome = true ∧
    (calculationResult inputs adv).achievableValue.isSome = true := by
  have hfind : fleetSearch inputs adv = none := fleetSearch_eq_none inputs adv hall
  simp [calculationResult, hnd, hfind, infeasibleResult]

unseal Rat.add Rat.mul Rat.inv Rat.sub in
theorem infeasible_sentinel_witness :
    degenerate jobStuck fleet1 = false ∧
    ((List.range' 1 (maxLorries jobStuck fleet1)).all
      fun n => ! feasible jobStuck fleet1 n) = true ∧
    ((calculationResult jobStuck fleet1).lorriesNeeded = none ∧
     (calculationResult jobStuck fleet1).totalCost = 0 ∧
     (calculationResult jobStuck fleet1).totalValue =
       jobStuck.material * jobStuck.pricePerTonne ∧
     (calculationResult jobStuck fleet1).achievableMaterial.isSome = true ∧
     (calculationResult jobStuck fleet1).achievableValue.isSome = true) :=
  ⟨by decide, by decide, infeasible_sentinel jobStuck fleet1 (by decide) (by decide)⟩

/-! ### C8: the achievable-throughput boundary -/

theorem achEnd_def (inputs : CalculatorInputs) (adv : AdvancedSettings) (i : ℕ) :
    achEnd inputs adv i =
      (dispatchOne (loadHours inputs) (travelHours inputs adv) (tipHours adv)
        (simSteps (loadHours inputs) (travelHours inputs adv) (tipHours adv) i
          (initState (maxLorries inputs adv)))).2.loadEnd := rfl

theorem loadHours_pos {inputs : CalculatorInputs} (h : 0 < inputs.loadTime) :
    0 < loadHours inputs := by
  have : (0 : ℚ) < 60 := by norm_num
  exact div_pos h this

/-- C8: in the infeasible branch, if the first `k` admission attempts of the
greedy dispatch at the ceiling fleet size end at or before the tolerated
deadline and attempt `k` ends strictly after it, then `achievableMaterial` is
exactly `k × lorryCapacity` and `achievableValue` is that times
`pricePerTonne`. -/
theorem achievable_boundary (inputs : CalculatorInputs) (adv : AdvancedSettings) (k : ℕ)
    (hnd : degenerate inputs adv = false)
    (hall : ((List.range' 1 (maxLorries inputs adv)).all
      fun n => ! feasible inputs adv n) = true)
    (hacc : ((List.range k).all
      fun i => decide (achEnd inputs adv i ≤ deadline inputs)) = true)
    (hrej : deadline inputs < achEnd inputs adv k) :
    (calculationResult inputs adv).achievableMaterial = some ((k : ℚ) * adv.lorryCapacity) ∧
    (calculationResult inputs adv).achievableValue =
      some ((k : ℚ) * adv.lorryCapacity * inputs.pricePerTonne) := by
  have hfind : fleetSearch inputs adv = none := fleetSearch_eq_none inputs adv hall
  have hload : 0 < loadHours inputs := loadHours_pos (pos_of_not_degenerate hnd).2.2.2
  have hacc' : ∀ i, i < k →
      (dispatchOne (loadHours inputs) (travelHours inputs adv) (tipHours adv)
        (simSteps (loadHours inputs) (travelHours inputs adv) (tipHours adv) i
          (initState (maxLorries inputs adv)))).2.loadEnd ≤ deadline inputs := by
    intro i hi
    have := List.all_eq_true.1 hacc i (List.mem_range.2 hi)
    rw [decide_eq_true_eq] at this
    rw [achEnd_def] at this
    exact this
  have hfuel : k < achFuel inputs := by
    unfold achFuel
    exact admitted_lt_fuel (loadHours inputs) (travelHours inputs adv) (tipHours adv)
      (deadline inputs) hload k (maxLorries inputs adv) hacc'
  have htrips : achievableTrips inputs adv = k := by
    unfold achievableTrips
    apply achLoop_eq_first_reject (loadHours inputs) (travelHours inputs adv) (tipHours adv)
      (deadline inputs) k (achFuel inputs) (initState (maxLorries inputs adv)) hfuel hacc'
    rw [achEnd_def] at hrej
    exact hrej
  simp [calculationResult, hnd, hfind, infeasibleResult, htrips]

unseal Rat.add Rat.mul Rat.inv Rat.sub in
theorem achievable_boundary_witness :
    degenerate jobStuck fleet1 = false ∧
    ((List.range' 1 (maxLorries jobStuck fleet1)).all
      fun n => ! feasible jobStuck fleet1 n) = true ∧
    ((List.range 0).all
      fun i => decide (achEnd jobStuck fleet1 i ≤ deadline jobStuck)) = true ∧
    deadline jobStuck < achEnd jobStuck fleet1 0 ∧
    ((calculationResult jobStuck fleet1).achievableMaterial =
        some ((0 : ℚ) * fleet1.lorryCapacity) ∧
     (calculationResult jobStuck fleet1).achievableValue =
        some ((0 : ℚ) * fleet1.lorryCapacity * jobStuck.pricePerTonne)) :=
  ⟨by decide, by decide, by decide, by decide,
    achievable_boundary jobStuck fleet1 0 (by decide) (by decide) (by decide) (by decide)⟩

/-! ### C10: termination of the achievable-throughput loop -/

/-- C10: for non-degenerate parameters the achievable-throughput admission
loop terminates: any fuel at least `achFuel` yields the same admitted count,
that count is bounded by `⌈deadline / loadHours⌉`, and each dispatch advances
the bay-free time by at least the load duration. -/
theorem achievable_loop_terminates (inputs : CalculatorInputs) (adv : AdvancedSettings)
    (hnd : degenerate inputs adv = false) (f i : ℕ) (hf : achFuel inputs ≤ f) :
    achLoop (loadHours inputs) (travelHours inputs adv) (tipHours adv) (deadline inputs) f
        (initState (maxLorries inputs adv)) = achievableTrips inputs adv ∧
    achievableTrips inputs adv ≤ (⌈deadline inputs / loadHours inputs⌉).toNat ∧
    (solverStateAt inputs adv (maxLorries inputs adv) i).bay + loadHours inputs ≤
      (solverStateAt inputs adv (maxLorries inputs adv) (i + 1)).bay := by
  have hload : 0 < loadHours inputs := loadHours_pos (pos_of_not_degenerate hnd).2.2.2
  have hdl : 0 < deadline inputs := by
    have := (pos_of_not_degenerate hnd).2.2.1
    unfold deadline
    linarith
  have hMceil : (((⌈deadline inputs / loadHours inputs⌉).toNat : ℤ)
      = ⌈deadline inputs / loadHours inputs⌉) := by
    have : (0 : ℤ) < ⌈deadline inputs / loadHours inputs⌉ :=
      Int.ceil_pos.2 (div_pos hdl hload)
    omega
  have hMge : deadline inputs / loadHours inputs
      ≤ (((⌈deadline inputs / loadHours inputs⌉).toNat : ℕ) : ℚ) := by
    have h1 := Int.le_ceil (deadline inputs / loadHours inputs)
    have h2 : ((⌈deadline inputs / loadHours inputs⌉ : ℤ) : ℚ)
        = (((⌈deadline inputs / loadHours inputs⌉).toNat : ℕ) : ℚ) := by
      exact_mod_cast hMceil.symm
    linarith
  have hPM : deadline inputs <
      (dispatchOne (loadHours inputs) (travelHours inputs adv) (tipHours adv)
        (simSteps (loadHours inputs) (travelHours inputs adv) (tipHours adv)
          ((⌈deadline inputs / loadHours inputs⌉).toNat)
          (initState (maxLorries inputs adv)))).2.loadEnd := by
    have hge := loadEnd_simSteps_ge (loadHours inputs) (travelHours inputs adv) (tipHours adv)
      ((⌈deadline inputs / loadHours inputs⌉).toNat) (initState (maxLorries inputs adv))
    have hbay0 : (initState (maxLorries inputs adv)).bay = 0 := rfl
    rw [hbay0] at hge
    have hMl : deadline inputs
        ≤ (((⌈deadline inputs / loadHours inputs⌉).toNat : ℕ) : ℚ) * loadHours inputs :=
      (div_le_iff₀ hload).1 hMge
    push_cast at hge
    nlinarith
  have hex : ∃ j, deadline inputs <
      (dispatchOne (loadHours inputs) (travelHours inputs adv) (tipHours adv)
        (simSteps (loadHours inputs) (travelHours inputs adv) (tipHours adv) j
          (initState (maxLorries inputs adv)))).2.loadEnd :=
    ⟨(⌈deadline inputs / loadHours inputs⌉).toNat, hPM⟩
  have hkrej := Nat.find_spec hex
  have hkacc : ∀ j, j < Nat.find hex →
      (dispatchOne (loadHours inputs) (travelHours inputs adv) (tipHours adv)
        (simSteps (loadHours inputs) (travelHours inputs adv) (tipHours adv) j
          (initState (maxLorries inputs adv)))).2.loadEnd ≤ deadline inputs := by
    intro j hj
    exact not_lt.1 (Nat.find_min hex hj)
  have hkM : Nat.find hex ≤ (⌈deadline inputs / loadHours inputs⌉).toNat :=
    Nat.find_min' hex hPM
  have hachfuel : achFuel inputs = (⌈deadline inputs / loadHours inputs⌉).toNat + 1 := rfl
  have h2 : achievableTrips inputs adv = Nat.find hex := by
    unfold achievableTrips
    exact achLoop_eq_first_reject (loadHours inputs) (travelHours inputs adv) (tipHours adv)
      (deadline inputs) (Nat.find hex) (achFuel inputs) (initState (maxLorries inputs adv))
      (by omega) hkacc hkrej
  have h1 : achLoop (loadHours inputs) (travelHours inputs adv) (tipHours adv)
      (deadline inputs) f (initState (maxLorries inputs adv)) = Nat.find hex :=
    achLoop_eq_first_reject (loadHours inputs) (travelHours inputs adv) (tipHours adv)
      (deadline inputs) (Nat.find hex) f (initState (maxLorries inputs adv))
      (by omega) hkacc hkrej
  refine ⟨h1.trans h2.symm, by omega, ?_⟩
  have hstep : solverStateAt inputs adv (maxLorries inputs adv) (i + 1) =
      (dispatchOne (loadHours inputs) (travelHours inputs adv) (tipHours adv)
        (solverStateAt inputs adv (maxLorries inputs adv) i)).1 := by
    unfold solverStateAt
    exact simSteps_succ_back (loadHours inputs) (travelHours inputs adv) (tipHours adv) i
      (initState (maxLorries inputs adv))
  rw [hstep]
  exact bay_le_dispatch_bay (loadHours inputs) (travelHours inputs adv) (tipHours adv)
    (solverStateAt inputs adv (maxLorries inputs adv) i)

unseal Rat.add Rat.mul Rat.inv Rat.sub in
theorem achievable_loop_terminates_witness :
    degenerate jobShort fleet1 = false ∧
    achFuel jobShort ≤ 3 ∧
    (achLoop (loadHours jobShort) (travelHours jobShort fleet1) (tipHours fleet1)
        (deadline jobShort) 3 (initState (maxLorries jobShort fleet1)) =
      achievableTrips jobShort fleet1 ∧
     achievableTrips jobShort fleet1 ≤ (⌈deadline jobShort / loadHours jobShort⌉).toNat ∧
     (solverStateAt jobShort fleet1 (maxLorries jobShort fleet1) 0).bay +
        loadHours jobShort ≤
      (solverStateAt jobShort fleet1 (maxLorries jobShort fleet1) (0 + 1)).bay) :=
  ⟨by decide, by decide,
    achievable_loop_terminates jobShort fleet1 (by decide) 3 0 (by decide)⟩

/-! ### C1: monotonicity of feasibility in the fleet size -/

theorem foldl_min_le_init (xs : List ℚ) (x : ℚ) : xs.foldl min x ≤ x := by
  induction xs generalizing x with
  | nil => exact le_refl x
  | cons a l ih =>
    rw [List.foldl_cons]
    exact (ih (min x a)).trans (min_le_left x a)

theorem foldl_min_mem (xs : List ℚ) (x : ℚ) : xs.foldl min x = x ∨ xs.foldl min x ∈ xs := by
  induction xs generalizing x with
  | nil => exact Or.inl rfl
  | cons a l ih =>
    rw [List.foldl_cons]
    rcases ih (min x a) with h | h
    · rcases le_total x a with hxa | hax
      · exact Or.inl (by rw [h, min_eq_left hxa])
      · exact Or.inr (by rw [h, min_eq_right hax]; exact List.mem_cons_self a l)
    · exact Or.inr (List.mem_cons_of_mem a h)

theorem foldl_min_le_mem (xs : List ℚ) (x y : ℚ) (hy : y ∈ xs) : xs.foldl min x ≤ y := by
  induction xs generalizing x with
  | nil => cases hy
  | cons a l ih =>
    rw [List.foldl_cons]
    rcases List.mem_cons.1 hy with rfl | h
    · exact (foldl_min_le_init l (min x y)).trans (min_le_right x y)
    · exact ih (min x a) h

theorem listMin_mem {l : List ℚ} (h : l ≠ []) : listMin l ∈ l := by
  cases l with
  | nil => exact absurd rfl h
  | cons x xs =>
    rw [listMin]
    rcases foldl_min_mem xs x with h1 | h1
    · rw [h1]; exact List.mem_cons_self x xs
    · exact List.mem_cons_of_mem x h1

theorem listMin_le {l : List ℚ} {y : ℚ} (hy : y ∈ l) : listMin l ≤ y := by
  cases l with
  | nil => cases hy
  | cons x xs =>
    rw [listMin]
    rcases List.mem_cons.1 hy with rfl | h
    · exact foldl_min_le_init xs y
    · exact foldl_min_le_mem xs x y h

theorem countLE_cons (t a : ℚ) (l : List ℚ) :
    countLE t (a :: l) = (if a ≤ t then 1 else 0) + countLE t l := by
  by_cases h : a ≤ t <;> simp [countLE, List.filter_cons, h, Nat.add_comm]

theorem countLE_set (t v : ℚ) :
    ∀ (l : List ℚ) (i : ℕ), i < l.length →
      countLE t (l.set i v) + (if l.getD i 0 ≤ t then 1 else 0) =
        countLE t l + (if v ≤ t then 1 else 0) := by
  intro l
  induction l with
  | nil => intro i hi; simp at hi
  | cons a l ih =>
    intro i hi
    cases i with
    | zero =>
      simp only [List.set_cons_zero, List.getD_cons_zero, countLE_cons]
      omega
    | succ i =>
      have hi' : i < l.length := by simpa using hi
      have := ih i hi'
      simp only [List.set_cons_succ, List.getD_cons_succ, countLE_cons]
      omega

theorem countLE_pos {t x : ℚ} {l : List ℚ} (hx : x ∈ l) (hxt : x ≤ t) :
    1 ≤ countLE t l := by
  have hmem : x ∈ l.filter fun y => decide (y ≤ t) := List.mem_filter.2 ⟨hx, by simp [hxt]⟩
  exact List.length_pos_of_mem hmem

theorem countLE_eq_zero {t : ℚ} {l : List ℚ} (h : ∀ x ∈ l, ¬ x ≤ t) : countLE t l = 0 := by
  unfold countLE
  rw [List.length_eq_zero, List.filter_eq_nil_iff]
  intro a ha
  simp [h a ha]

theorem countLE_replicate (t : ℚ) (n : ℕ) :
    countLE t (List.replicate n 0) = if (0 : ℚ) ≤ t then n else 0 := by
  induction n with
  | zero => simp [countLE]
  | succ n ih =>
    rw [List.replicate_succ, countLE_cons, ih]
    by_cases h : (0 : ℚ) ≤ t
    · simp [h]
      omega
    · simp [h]

theorem dispatchOne_lorries (loadH travelH tipH : ℚ) (s : SimState) :
    (dispatchOne loadH travelH tipH s).1.lorries =
      s.lorries.set (s.lorries.findIdx fun x => decide (x = listMin s.lorries))
        (max (listMin s.lorries) s.bay + loadH + travelH + tipH + travelH) := rfl

theorem findIdx_min_lt_length {l : List ℚ} (h : l ≠ []) :
    l.findIdx (fun x => decide (x = listMin l)) < l.length :=
  List.findIdx_lt_length_of_exists ⟨listMin l, listMin_mem h, by simp⟩

theorem getD_findIdx_min {l : List ℚ} (h : l ≠ []) :
    l.getD (l.findIdx fun x => decide (x = listMin l)) 0 = listMin l := by
  have hlt := findIdx_min_lt_length h
  rw [List.getD_eq_getElem l 0 hlt]
  have := List.findIdx_getElem (p := fun x => decide (x = listMin l)) (w := hlt)
  simpa using this

theorem set_ne_nil {α : Type} {l : List α} (h : l ≠ []) (i : ℕ) (v : α) : l.set i v ≠ [] := by
  intro hcon
  have := congrArg List.length hcon
  simp at this
  exact h this

/-- One dispatch step preserves domination, and the dominating run's load end
is no later. -/
theorem dom_step (loadH travelH tipH : ℚ) {sa sb : SimState} (h : Dom sa sb) :
    Dom (dispatchOne loadH travelH tipH sa).1 (dispatchOne loadH travelH tipH sb).1 ∧
      (dispatchOne loadH travelH tipH sa).2.loadEnd ≤
        (dispatchOne loadH travelH tipH sb).2.loadEnd := by
  obtain ⟨hnea, hneb, hbay, hcount⟩ := h
  have hmin : listMin sa.lorries ≤ listMin sb.lorries := by
    by_contra hlt
    push_neg at hlt
    have h1 : 1 ≤ countLE (listMin sb.lorries) sb.lorries :=
      countLE_pos (listMin_mem hneb) le_rfl
    have h2 : countLE (listMin sb.lorries) sa.lorries = 0 :=
      countLE_eq_zero fun x hx hxle => absurd ((listMin_le hx).trans hxle) (not_le.2 hlt)
    have := hcount (listMin sb.lorries)
    omega
  have hloadEnd : (dispatchOne loadH travelH tipH sa).2.loadEnd ≤
      (dispatchOne loadH travelH tipH sb).2.loadEnd := by
    rw [dispatchOne_loadEnd, dispatchOne_loadEnd]
    have := max_le_max hmin hbay
    linarith
  refine ⟨⟨?_, ?_, ?_, ?_⟩, hloadEnd⟩
  · rw [dispatchOne_lorries]
    exact set_ne_nil hnea _ _
  · rw [dispatchOne_lorries]
    exact set_ne_nil hneb _ _
  · rw [dispatchOne_bay, dispatchOne_bay]
    have := max_le_max hmin hbay
    linarith
  · intro t
    have hseta := countLE_set t
      (max (listMin sa.lorries) sa.bay + loadH + travelH + tipH + travelH) sa.lorries
      (sa.lorries.findIdx fun x => decide (x = listMin sa.lorries))
      (findIdx_min_lt_length hnea)
    have hsetb := countLE_set t
      (max (listMin sb.lorries) sb.bay + loadH + travelH + tipH + travelH) sb.lorries
      (sb.lorries.findIdx fun x => decide (x = listMin sb.lorries))
      (findIdx_min_lt_length hneb)
    rw [getD_findIdx_min hnea] at hseta
    rw [getD_findIdx_min hneb] at hsetb
    rw [dispatchOne_lorries, dispatchOne_lorries]
    have hret : max (listMin sa.lorries) sa.bay + loadH + travelH + tipH + travelH ≤
        max (listMin sb.lorries) sb.bay + loadH + travelH + tipH + travelH := by
      have := max_le_max hmin hbay
      linarith
    have hcnt := hcount t
    by_cases hminbt : listMin sb.lorries ≤ t
    · have hminat : listMin sa.lorries ≤ t := hmin.trans hminbt
      have hca : 1 ≤ countLE t sa.lorries := countLE_pos (listMin_mem hnea) hminat
      have hcb : 1 ≤ countLE t sb.lorries := countLE_pos (listMin_mem hneb) hminbt
      rw [if_pos hminat] at hseta
      rw [if_pos hminbt] at hsetb
      by_cases hrb : max (listMin sb.lorries) sb.bay + loadH + travelH + tipH + travelH ≤ t
      · rw [if_pos (hret.trans hrb)] at hseta
        rw [if_pos hrb] at hsetb
        omega
      · rw [if_neg hrb] at hsetb
        by_cases hra : max (listMin sa.lorries) sa.bay + loadH + travelH + tipH + travelH ≤ t
        · rw [if_pos hra] at hseta
          omega
        · rw [if_neg hra] at hseta
          omega
    · have hcb0 : countLE t sb.lorries = 0 :=
        countLE_eq_zero fun x hx hxle => hminbt ((listMin_le hx).trans hxle)
      rw [if_neg hminbt] at hsetb
      by_cases hrb : max (listMin sb.lorries) sb.bay + loadH + travelH + tipH + travelH ≤ t
      · rw [if_pos hrb] at hsetb
        rw [if_pos (hret.trans hrb)] at hseta
        by_cases hminat : listMin sa.lorries ≤ t
        · have hca : 1 ≤ countLE t sa.lorries := countLE_pos (listMin_mem hnea) hminat
          rw [if_pos hminat] at hseta
          omega
        · rw [if_neg hminat] at hseta
          omega
      · rw [if_neg hrb] at hsetb
        by_cases hminat : listMin sa.lorries ≤ t
        · have hca : 1 ≤ countLE t sa.lorries := countLE_pos (listMin_mem hnea) hminat
          rw [if_pos hminat] at hseta
          by_cases hra : max (listMin sa.lorries) sa.bay + loadH + travelH + tipH + travelH ≤ t
          · rw [if_pos hra] at hseta
            omega
          · rw [if_neg hra] at hseta
            omega
        · rw [if_neg hminat] at hseta
          by_cases hra : max (listMin sa.lorries) sa.bay + loadH + travelH + tipH + travelH ≤ t
          · rw [if_pos hra] at hseta
            omega
          · rw [if_neg hra] at hseta
            omega

theorem feasRun_mono (loadH travelH tipH dl : ℚ) :
    ∀ (k : ℕ) {sa sb : SimState}, Dom sa sb →
      feasRun loadH travelH tipH dl k sb = true → feasRun loadH travelH tipH dl k sa = true := by
  intro k
  induction k with
  | zero => intro sa sb _ _; rfl
  | succ k ih =>
    intro sa sb hdom hb
    obtain ⟨hdom', hle⟩ := dom_step loadH travelH tipH hdom
    rw [feasRun] at hb ⊢
    by_cases h : dl < (dispatchOne loadH travelH tipH sb).2.loadEnd
    · rw [if_pos h] at hb
      exact absurd hb (by simp)
    · have ha : ¬ dl < (dispatchOne loadH travelH tipH sa).2.loadEnd :=
        fun hlt => h (hlt.trans_le hle)
      rw [if_neg h] at hb
      rw [if_neg ha]
      exact ih hdom' hb

theorem dom_init (n : ℕ) (hn : 1 ≤ n) : Dom (initState (n + 1)) (initState n) := by
  refine ⟨?_, ?_, le_refl 0, ?_⟩
  · simp [initState]
  · simp [initState]
    omega
  · intro t
    simp only [initState, countLE_replicate]
    by_cases h : (0 : ℚ) ≤ t <;> simp [h]

theorem find?_range'_spec {p : ℕ → Bool} :
    ∀ (m s a : ℕ), (List.range' s m).find? p = some a →
      p a = true ∧ s ≤ a ∧ a < s + m ∧ ∀ j, s ≤ j → j < a → p j = false := by
  intro m
  induction m with
  | zero => intro s a h; simp [List.range'] at h
  | succ m ih =>
    intro s a h
    rw [List.range'_succ, List.find?_cons] at h
    rcases hp : p s with _ | _
    · rw [hp] at h
      obtain ⟨hpa, hsa, ham, hmin⟩ := ih (s + 1) a h
      exact ⟨hpa, by omega, by omega, fun j hj hja => by
        rcases Nat.eq_or_lt_of_le hj with rfl | hlt
        · exact hp
        · exact hmin j (by omega) hja⟩
    · rw [hp] at h
      simp at h
      subst h
      exact ⟨hp, le_refl s, by omega, fun j hj hja => by omega⟩

/-- C1: for parameters passing the degenerate check, greedy feasibility is
monotone in the fleet size, and the returned `lorriesNeeded`, when finite, is
the least fleet size in `1..max(50, totalTripsNeeded)` that the greedy
dispatch can serve. -/
theorem fleet_monotone_minimal (inputs : CalculatorInputs) (adv : AdvancedSettings)
    (hnd : degenerate inputs adv = false) (n m : ℕ) (hn : 1 ≤ n) :
    (feasible inputs adv n = true → feasible inputs adv (n + 1) = true) ∧
    ((calculationResult inputs adv).lorriesNeeded = some m →
      1 ≤ m ∧ m ≤ maxLorries inputs adv ∧ feasible inputs adv m = true ∧
        ((List.range' 1 (m - 1)).all fun j => ! feasible inputs adv j) = true) := by
  constructor
  · intro hfeas
    unfold feasible at hfeas ⊢
    exact feasRun_mono _ _ _ _ _ (dom_init n hn) hfeas
  · intro hres
    have hsearch : fleetSearch inputs adv = some m := by
      rcases hs : fleetSearch inputs adv with _ | k
      · rw [calculationResult] at hres
        simp [hnd, hs, infeasibleResult] at hres
      · rw [calculationResult] at hres
        simp only [hnd, Bool.false_eq_true, if_false, hs, feasibleResult] at hres
        simp at hres
        subst hres
        rfl
    obtain ⟨hpm, h1m, hlt, hmin⟩ := find?_range'_spec (maxLorries inputs adv) 1 m hsearch
    refine ⟨h1m, by omega, hpm, ?_⟩
    rw [List.all_eq_true]
    intro j hj
    have hjm := List.mem_range'_1.1 hj
    have := hmin j hjm.1 (by omega)
    simp [this]

theorem fleet_monotone_minimal_witness :
    degenerate job1 fleet1 = false ∧ 1 ≤ 1 ∧
    ((feasible job1 fleet1 1 = true → feasible job1 fleet1 (1 + 1) = true) ∧
     ((calculationResult job1 fleet1).lorriesNeeded = some 1 →
       1 ≤ 1 ∧ 1 ≤ maxLorries job1 fleet1 ∧ feasible job1 fleet1 1 = true ∧
         ((List.range' 1 (1 - 1)).all fun j => ! feasible job1 fleet1 j) = true)) :=
  ⟨by decide, le_refl 1, fleet_monotone_minimal job1 fleet1 (by decide) 1 1 (le_refl 1)⟩

/-! ### The schedule builder re-runs the solver's dispatch loop -/

theorem set_getD_self {α : Type} :
    ∀ (l : List α) (i : ℕ), i < l.length → ∀ d : α, l.set i (l.getD i d) = l := by
  intro l
  induction l with
  | nil => intro i hi; simp at hi
  | cons a l ih =>
    intro i hi d
    cases i with
    | zero => simp
    | succ i =>
      have hi' : i < l.length := by simpa using hi
      rw [List.getD_cons_succ, List.set_cons_succ, ih i hi' d]

theorem sum_set_nat :
    ∀ (l : List ℕ) (i : ℕ), i < l.length → ∀ v : ℕ,
      (l.set i v).sum + l.getD i 0 = l.sum + v := by
  intro l
  induction l with
  | nil => intro i hi; simp at hi
  | cons a l ih =>
    intro i hi v
    cases i with
    | zero => simp [List.sum_cons]; omega
    | succ i =>
      have hi' : i < l.length := by simpa using hi
      have := ih i hi' v
      simp only [List.set_cons_succ, List.getD_cons_succ, List.sum_cons]
      omega

theorem findIdx_map {α β : Type} (f : α → β) (p : β → Bool) :
    ∀ l : List α, (l.map f).findIdx p = l.findIdx fun a => p (f a) := by
  intro l
  induction l with
  | nil => rfl
  | cons a l ih =>
    rw [List.map_cons, List.findIdx_cons, List.findIdx_cons, ih]

theorem builderSteps_succ_back (loadH travelH tipH : ℚ) (k : ℕ) (s : BState) :
    builderSteps loadH travelH tipH (k + 1) s =
      builderStep loadH travelH tipH (builderSteps loadH travelH tipH k s) := by
  induction k generalizing s with
  | zero => rfl
  | succ k ih =>
    rw [builderSteps]
    rw [ih]
    rfl

theorem bTimes_length (ls : List BLorry) : (bTimes ls).length = ls.length :=
  List.length_map ls _

theorem bChoice_exists {ls : List BLorry} (h : ls ≠ []) :
    ∃ lo ∈ ls, (decide (lo.nextAvailableTime = listMin (bTimes ls))) = true := by
  have hne : bTimes ls ≠ [] := by
    intro hcon
    have := congrArg List.length hcon
    rw [bTimes_length] at this
    simp at this
    exact h this
  have hmem := listMin_mem hne
  obtain ⟨lo, hlo, heq⟩ := List.mem_map.1 hmem
  exact ⟨lo, hlo, by simp [heq]⟩

theorem bChoice_lt_length {ls : List BLorry} (h : ls ≠ []) : bChoice ls < ls.length :=
  List.findIdx_lt_length_of_exists (bChoice_exists h)

theorem chosen_time {ls : List BLorry} (h : ls ≠ []) :
    (ls.getD (bChoice ls) defaultBLorry).nextAvailableTime = listMin (bTimes ls) := by
  show (ls.getD (ls.findIdx fun lo => decide (lo.nextAvailableTime = listMin (bTimes ls)))
    defaultBLorry).nextAvailableTime = listMin (bTimes ls)
  have hlt : ls.findIdx (fun lo => decide (lo.nextAvailableTime = listMin (bTimes ls)))
      < ls.length := bChoice_lt_length h
  rw [List.getD_eq_getElem ls defaultBLorry hlt]
  have hp := List.findIdx_getElem (w := hlt)
  simpa using hp

theorem bTimes_set (ls : List BLorry) (i : ℕ) (lo : BLorry) :
    bTimes (ls.set i lo) = (bTimes ls).set i lo.nextAvailableTime := by
  unfold bTimes
  rw [List.map_set]

theorem bChoice_eq_proj (ls : List BLorry) :
    (bTimes ls).findIdx (fun x => decide (x = listMin (bTimes ls))) = bChoice ls := by
  rw [bTimes, findIdx_map]
  rfl

theorem projB_step (loadH travelH tipH : ℚ) (s : BState) (h : s.lorries ≠ []) :
    projB (builderStep loadH travelH tipH s) =
      (dispatchOne loadH travelH tipH (projB s)).1 := by
  have hct := chosen_time h
  have hidx := bChoice_eq_proj s.lorries
  simp only [builderStep, dispatchOne, projB, bTimes_set]
  rw [hidx, hct]

theorem builderStep_ne_nil (loadH travelH tipH : ℚ) (s : BState) (h : s.lorries ≠ []) :
    (builderStep loadH travelH tipH s).lorries ≠ [] := by
  unfold builderStep
  exact set_ne_nil h _ _

theorem projB_steps (loadH travelH tipH : ℚ) :
    ∀ (k : ℕ) (s : BState), s.lorries ≠ [] →
      projB (builderSteps loadH travelH tipH k s) =
        simSteps loadH travelH tipH k (projB s) ∧
      (builderSteps loadH travelH tipH k s).lorries ≠ [] := by
  intro k
  induction k with
  | zero => intro s h; exact ⟨rfl, h⟩
  | succ k ih =>
    intro s h
    rw [builderSteps, simSteps]
    obtain ⟨h1, h2⟩ := ih (builderStep loadH travelH tipH s)
      (builderStep_ne_nil loadH travelH tipH s h)
    refine ⟨?_, h2⟩
    rw [h1, projB_step loadH travelH tipH s h]

theorem builderInit_ne_nil {n : ℕ} (hn : 1 ≤ n) : (builderInit n).lorries ≠ [] := by
  unfold builderInit
  intro hcon
  have := congrArg List.length hcon
  simp at this
  omega

theorem projB_init (n : ℕ) : projB (builderInit n) = initState n := by
  unfold projB builderInit initState bTimes
  simp [List.map_map, Function.comp_def, List.map_const', List.length_range]

theorem loadingPhasesB_cons (lo : BLorry) (ls : List BLorry) :
    loadingPhasesB (lo :: ls) = phOfTrips lo.trips ++ loadingPhasesB ls := by
  simp [loadingPhasesB]

theorem phOfTrips_concat (ts : List (List TripPhase)) (t : List TripPhase) :
    phOfTrips (ts ++ [t]) =
      phOfTrips ts ++ t.filter fun p => decide (p.type = PhaseType.loading) := by
  unfold phOfTrips
  rw [List.flatten_append, List.filter_append]
  simp

theorem flatPhases_set :
    ∀ (ls : List BLorry) (i : ℕ), i < ls.length → ∀ v : BLorry,
      ∃ A B, loadingPhasesB ls = A ++ phOfTrips (ls.getD i defaultBLorry).trips ++ B ∧
        loadingPhasesB (ls.set i v) = A ++ phOfTrips v.trips ++ B := by
  intro ls
  induction ls with
  | nil => intro i hi; simp at hi
  | cons a ls ih =>
    intro i hi v
    cases i with
    | zero =>
      refine ⟨[], loadingPhasesB ls, ?_, ?_⟩
      · simp [loadingPhasesB_cons]
      · simp [loadingPhasesB_cons]
    | succ i =>
      have hi' : i < ls.length := by simpa using hi
      obtain ⟨A, B, h1, h2⟩ := ih i hi' v
      refine ⟨phOfTrips a.trips ++ A, B, ?_, ?_⟩
      · rw [List.getD_cons_succ, loadingPhasesB_cons, h1]
        simp [List.append_assoc]
      · rw [List.set_cons_succ, loadingPhasesB_cons, h2]
        simp [List.append_assoc]

theorem phase4OK_shape (t : List TripPhase) (h : phase4OK t = true) :
    ∃ a b c d, t = [a, b, c, d] := by
  rcases t with _ | ⟨a, _ | ⟨b, _ | ⟨c, _ | ⟨d, _ | ⟨e, rest⟩⟩⟩⟩⟩
  · simp [phase4OK] at h
  · simp [phase4OK] at h
  · simp [phase4OK] at h
  · simp [phase4OK] at h
  · exact ⟨a, b, c, d, rfl⟩
  · simp [phase4OK] at h

theorem phase4OK_fields {a b c d : TripPhase} (h : phase4OK [a, b, c, d] = true) :
    a.type = PhaseType.loading ∧ b.type = PhaseType.travel ∧ c.type = PhaseType.tipping ∧
      d.type = PhaseType.travel ∧ a.finish = b.start ∧ b.finish = c.start ∧
      c.finish = d.start := by
  simp only [phase4OK, Bool.and_eq_true, decide_eq_true_eq] at h
  obtain ⟨⟨⟨⟨⟨⟨h1, h2⟩, h3⟩, h4⟩, h5⟩, h6⟩, h7⟩ := h
  exact ⟨h1, h2, h3, h4, h5, h6, h7⟩

theorem phase3OK_of_phase4OK {a b c d : TripPhase} (h : phase4OK [a, b, c, d] = true) :
    phase3OK [a, b, c] = true := by
  obtain ⟨h1, h2, h3, _, h5, h6, _⟩ := phase4OK_fields h
  simp only [phase3OK, Bool.and_eq_true, decide_eq_true_eq]
  exact ⟨⟨⟨⟨h1, h2⟩, h3⟩, h5⟩, h6⟩

theorem trimLorry_id (lo : BLorry) : (trimLorry lo).id = lo.id := by
  cases h1 : lo.trips.getLast? with
  | none => simp [trimLorry, h1]
  | some t =>
    cases h2 : t.getLast? with
    | none => simp [trimLorry, h1, h2]
    | some ph =>
      by_cases h3 : ph.type = PhaseType.travel <;> simp [trimLorry, h1, h2, h3]

theorem trimLorry_trips_length (lo : BLorry) :
    (trimLorry lo).trips.length = lo.trips.length := by
  cases h1 : lo.trips.getLast? with
  | none => simp [trimLorry, h1]
  | some t =>
    cases h2 : t.getLast? with
    | none => simp [trimLorry, h1, h2]
    | some ph =>
      by_cases h3 : ph.type = PhaseType.travel
      · have hne : lo.trips ≠ [] := by
          intro hcon
          rw [hcon] at h1
          simp at h1
        have hpos : 0 < lo.trips.length := List.length_pos.2 hne
        simp [trimLorry, h1, h2, h3, List.length_dropLast]
        omega
      · simp [trimLorry, h1, h2, h3]

theorem getLast?_some_ne_nil {α : Type} {l : List α} {a : α} (h : l.getLast? = some a) :
    l ≠ [] := by
  intro hcon
  rw [hcon] at h
  simp at h

theorem concat_getLast?_self {α : Type} {l : List α} {a : α} (h : l.getLast? = some a) :
    l.dropLast ++ [a] = l := by
  have hne : l ≠ [] := getLast?_some_ne_nil h
  have := List.getLast?_eq_getLast l hne
  rw [this] at h
  have ha : a = l.getLast hne := by
    injection h.symm
  rw [ha]
  exact List.dropLast_concat_getLast hne

theorem trimLorry_phases (lo : BLorry) :
    phOfTrips (trimLorry lo).trips = phOfTrips lo.trips := by
  cases h1 : lo.trips.getLast? with
  | none => simp [trimLorry, h1]
  | some t =>
    cases h2 : t.getLast? with
    | none => simp [trimLorry, h1, h2]
    | some ph =>
      by_cases h3 : ph.type = PhaseType.travel
      · simp only [trimLorry, h1, h2, if_pos h3]
        have htr : lo.trips.dropLast ++ [t] = lo.trips := concat_getLast?_self h1
        have hph : t.dropLast ++ [ph] = t := concat_getLast?_self h2
        calc phOfTrips (lo.trips.dropLast ++ [t.dropLast])
            = phOfTrips lo.trips.dropLast ++
                t.dropLast.filter (fun p => decide (p.type = PhaseType.loading)) :=
              phOfTrips_concat _ _
          _ = phOfTrips lo.trips.dropLast ++
                t.filter (fun p => decide (p.type = PhaseType.loading)) := by
              rw [← hph, List.filter_append]
              simp [h3]
          _ = phOfTrips (lo.trips.dropLast ++ [t]) := (phOfTrips_concat _ _).symm
          _ = phOfTrips lo.trips := by rw [htr]
      · simp [trimLorry, h1, h2, h3]

theorem pairwise_insert_middle {R : TripPhase → TripPhase → Prop}
    (A X B : List TripPhase) (p : TripPhase)
    (hPW : List.Pairwise R (A ++ X ++ B))
    (hp : ∀ x ∈ A ++ X ++ B, R x p ∧ R p x) :
    List.Pairwise R (A ++ (X ++ [p]) ++ B) := by
  rcases List.pairwise_append.1 hPW with ⟨hAX, hB, hcross⟩
  rcases List.pairwise_append.1 hAX with ⟨hA, hX, hAXc⟩
  apply List.pairwise_append.2
  refine ⟨?_, hB, ?_⟩
  · apply List.pairwise_append.2
    refine ⟨hA, ?_, ?_⟩
    · apply List.pairwise_append.2
      refine ⟨hX, ?_, ?_⟩
      · exact List.pairwise_singleton R p
      · intro x hx y hy
        rw [List.mem_singleton] at hy
        subst hy
        exact (hp x (List.mem_append_left B (List.mem_append_right A hx))).1
    · intro a ha y hy
      rw [List.mem_append] at hy
      rcases hy with hy | hy
      · exact hAXc a ha y hy
      · rw [List.mem_singleton] at hy
        subst hy
        exact (hp a (List.mem_append_left B (List.mem_append_left X ha))).1
  · intro a ha b hb
    rw [List.mem_append] at ha
    rcases ha with ha | ha
    · exact hcross a (List.mem_append_left X ha) b hb
    · rw [List.mem_append] at ha
      rcases ha with ha | ha
      · exact hcross a (List.mem_append_right A ha) b hb
      · rw [List.mem_singleton] at ha
        subst ha
        exact (hp b (List.mem_append_right (A ++ X) hb)).2

theorem getD_map {α β : Type} (f : α → β) :
    ∀ (l : List α) (i : ℕ) (d : α), (l.map f).getD i (f d) = f (l.getD i d) := by
  intro l
  induction l with
  | nil => intro i d; simp
  | cons a l ih =>
    intro i d
    cases i with
    | zero => simp
    | succ i => simp [ih i d]

/-- One builder step preserves the invariant, recording one more trip. -/
theorem buildInv_step (loadH travelH tipH : ℚ) (hlh : 0 ≤ loadH) {n k : ℕ} {s : BState}
    (hn : 1 ≤ n) (inv : BuildInv n k s) :
    BuildInv n (k + 1) (builderStep loadH travelH tipH s) := by
  have hlen : s.lorries.length = n := by
    have := congrArg List.length inv.ids
    simpa using this
  have hne : s.lorries ≠ [] := by
    intro hcon
    rw [hcon] at hlen
    simp at hlen
    omega
  have hidx : bChoice s.lorries < s.lorries.length := bChoice_lt_length hne
  set lo := s.lorries.getD (bChoice s.lorries) defaultBLorry with hlo
  set st := max lo.nextAvailableTime s.bay with hst
  set p0 : TripPhase := ⟨st, st + loadH, PhaseType.loading⟩ with hp0
  set p1 : TripPhase := ⟨st + loadH, st + loadH + travelH, PhaseType.travel⟩ with hp1
  set p2 : TripPhase :=
    ⟨st + loadH + travelH, st + loadH + travelH + tipH, PhaseType.tipping⟩ with hp2
  set p3 : TripPhase :=
    ⟨st + loadH + travelH + tipH, st + loadH + travelH + tipH + travelH,
      PhaseType.travel⟩ with hp3
  set nl : BLorry :=
    ⟨lo.id, lo.trips ++ [[p0, p1, p2, p3]], st + loadH + travelH + tipH + travelH⟩ with hnl
  have hbs : builderStep loadH travelH tipH s =
      ⟨s.lorries.set (bChoice s.lorries) nl, st + loadH⟩ := rfl
  have hmem_lo : lo ∈ s.lorries := by
    rw [hlo, List.getD_eq_getElem s.lorries defaultBLorry hidx]
    exact List.getElem_mem hidx
  have hnl_trips : nl.trips = lo.trips ++ [[p0, p1, p2, p3]] := by rw [hnl]
  have hnl_id : nl.id = lo.id := by rw [hnl]
  obtain ⟨A, B, hAB, hAB'⟩ := flatPhases_set s.lorries (bChoice s.lorries) hidx nl
  rw [← hlo] at hAB
  have hnewph : phOfTrips nl.trips = phOfTrips lo.trips ++ [p0] := by
    rw [hnl_trips, phOfTrips_concat]
    congr 1
  have hbay_le : s.bay ≤ st + loadH := by
    have h1 : s.bay ≤ st := by rw [hst]; exact le_max_right _ _
    linarith
  have hold_le : ∀ q ∈ loadingPhasesB s.lorries, q.finish ≤ st + loadH :=
    fun q hq => (inv.bayBound q hq).trans hbay_le
  constructor
  · -- ids
    rw [hbs]
    show (s.lorries.set (bChoice s.lorries) nl).map (fun l => l.id) = List.range' 1 n
    rw [List.map_set, hnl_id]
    have hgd : (s.lorries.map fun l => l.id).getD (bChoice s.lorries) 0 = lo.id := by
      have h := getD_map (fun l => l.id) s.lorries (bChoice s.lorries) defaultBLorry
      rw [← hlo] at h
      exact h
    calc (s.lorries.map fun l => l.id).set (bChoice s.lorries) lo.id
        = (s.lorries.map fun l => l.id).set (bChoice s.lorries)
            ((s.lorries.map fun l => l.id).getD (bChoice s.lorries) 0) := by rw [hgd]
      _ = s.lorries.map fun l => l.id :=
          set_getD_self _ _ (by simpa using hidx) 0
      _ = List.range' 1 n := inv.ids
  · -- trip count
    rw [hbs]
    show ((s.lorries.set (bChoice s.lorries) nl).map fun l => l.trips.length).sum = k + 1
    rw [List.map_set]
    have hnltl : nl.trips.length = lo.trips.length + 1 := by
      rw [hnl_trips]
      simp
    have hgd : (s.lorries.map fun l => l.trips.length).getD (bChoice s.lorries) 0 =
        lo.trips.length := by
      have h := getD_map (fun l => l.trips.length) s.lorries (bChoice s.lorries) defaultBLorry
      rw [← hlo] at h
      exact h
    have hsum := sum_set_nat (s.lorries.map fun l => l.trips.length) (bChoice s.lorries)
      (by simpa using hidx) nl.trips.length
    rw [hgd] at hsum
    have hk := inv.tripsCount
    omega
  · -- shapes
    rw [hbs]
    intro lo' hlo' t ht
    rcases List.mem_or_eq_of_mem_set hlo' with hmem | heq
    · exact inv.shapes lo' hmem t ht
    · subst heq
      rw [hnl_trips] at ht
      rcases List.mem_append.1 ht with h | h
      · exact inv.shapes lo hmem_lo t h
      · rw [List.mem_singleton] at h
        subst h
        rw [hp0, hp1, hp2, hp3]
        simp [phase4OK]
  · -- loading phases end by the new bay-free time
    rw [hbs]
    intro p hp
    show p.finish ≤ st + loadH
    rw [hAB', hnewph] at hp
    rcases List.mem_append.1 hp with hp | hp
    · rcases List.mem_append.1 hp with hp | hp
      · exact hold_le p (by rw [hAB]; exact List.mem_append_left B (List.mem_append_left _ hp))
      · rcases List.mem_append.1 hp with hp | hp
        · exact hold_le p
            (by rw [hAB]; exact List.mem_append_left B (List.mem_append_right A hp))
        · rw [List.mem_singleton] at hp
          subst hp
          rw [hp0]
    · exact hold_le p (by rw [hAB]; exact List.mem_append_right _ hp)
  · -- loading phases stay pairwise disjoint
    rw [hbs]
    show List.Pairwise phaseDisjoint (loadingPhasesB (s.lorries.set (bChoice s.lorries) nl))
    rw [hAB', hnewph]
    apply pairwise_insert_middle A (phOfTrips lo.trips) B p0
    · rw [← hAB]
      exact inv.disj
    · intro x hx
      have hold : x ∈ loadingPhasesB s.lorries := by rw [hAB]; exact hx
      have hxf : x.finish ≤ s.bay := inv.bayBound x hold
      have hxs : s.bay ≤ p0.start := by
        rw [hp0]
        show s.bay ≤ st
        rw [hst]
        exact le_max_right _ _
      exact ⟨Or.inl (hxf.trans hxs), Or.inr (hxf.trans hxs)⟩

/-- The invariant holds after any number of builder steps from the initial
state. -/
theorem buildInv_steps (loadH travelH tipH : ℚ) (hlh : 0 ≤ loadH) (n : ℕ) (hn : 1 ≤ n) :
    ∀ k, BuildInv n k (builderSteps loadH travelH tipH k (builderInit n)) := by
  have hnil : loadingPhasesB (builderInit n).lorries = [] := by
    show ((List.range n).map fun i => (⟨i + 1, [], 0⟩ : BLorry)).flatMap
      (fun lo => phOfTrips lo.trips) = []
    induction List.range n with
    | nil => rfl
    | cons a l ih => simp [phOfTrips, ih]
  intro k
  induction k with
  | zero =>
    show BuildInv n 0 (builderInit n)
    constructor
    · show ((List.range n).map fun i => (⟨i + 1, [], 0⟩ : BLorry)).map (fun l => l.id) =
        List.range' 1 n
      rw [List.map_map, List.range'_eq_map_range]
      apply List.map_congr_left
      intro i _
      simp [Function.comp_def]
      omega
    · show (((List.range n).map fun i => (⟨i + 1, [], 0⟩ : BLorry)).map
        fun l => l.trips.length).sum = 0
      rw [List.map_map]
      simp [Function.comp_def]
    · intro lo hmem t ht
      obtain ⟨i, _, rfl⟩ := List.mem_map.1 hmem
      simp at ht
    · intro p hp
      rw [hnil] at hp
      cases hp
    · rw [hnil]
      exact List.Pairwise.nil
  | succ k ih =>
    rw [builderSteps_succ_back]
    exact buildInv_step loadH travelH tipH hlh hn ih

theorem lorryTripsOK_of_all4 (lo : BLorry) (hall : ∀ t ∈ lo.trips, phase4OK t = true) :
    lorryTripsOK (trimLorry lo).trips = true := by
  cases h1 : lo.trips.getLast? with
  | none =>
    have hnil : lo.trips = [] := by
      cases htr : lo.trips with
      | nil => rfl
      | cons a l =>
        exfalso
        rw [htr] at h1
        have := List.getLast?_eq_getLast (a :: l) (by simp)
        rw [this] at h1
        cases h1
    simp [trimLorry, h1, hnil, lorryTripsOK]
  | some t =>
    have htmem : t ∈ lo.trips := by
      have hc := concat_getLast?_self h1
      rw [← hc]
      exact List.mem_append_right _ (List.mem_singleton.2 rfl)
    obtain ⟨a, b, c, d, rfl⟩ := phase4OK_shape t (hall t htmem)
    have hfields := phase4OK_fields (hall _ htmem)
    have h2 : ([a, b, c, d] : List TripPhase).getLast? = some d := rfl
    have hdt : d.type = PhaseType.travel := hfields.2.2.2.1
    have htrips : (trimLorry lo).trips = lo.trips.dropLast ++ [[a, b, c]] := by
      simp [trimLorry, h1, h2, hdt]
    rw [htrips]
    unfold lorryTripsOK
    rw [List.dropLast_concat, List.getLast?_concat, Bool.and_eq_true]
    constructor
    · rw [List.all_eq_true]
      intro t' ht'
      exact hall t' (List.dropLast_subset _ ht')
    · exact phase3OK_of_phase4OK (hall _ htmem)

theorem flatMap_congr {α β : Type} (l : List α) (f g : α → List β)
    (h : ∀ a ∈ l, f a = g a) : l.flatMap f = l.flatMap g := by
  induction l with
  | nil => rfl
  | cons a l ih =>
    rw [List.flatMap_cons, List.flatMap_cons, h a (List.mem_cons_self a l),
      ih fun a ha => h a (List.mem_cons_of_mem _ ha)]

theorem pairwiseDisjointB_iff :
    ∀ l, pairwiseDisjointB l = true ↔ List.Pairwise phaseDisjoint l := by
  intro l
  induction l with
  | nil => simp [pairwiseDisjointB]
  | cons p ps ih =>
    rw [List.pairwise_cons, pairwiseDisjointB, Bool.and_eq_true, ih, List.all_eq_true]
    constructor
    · rintro ⟨h1, h2⟩
      exact ⟨fun q hq => of_decide_eq_true (h1 q hq), h2⟩
    · rintro ⟨h1, h2⟩
      exact ⟨fun q hq => decide_eq_true (h1 q hq), h2⟩

theorem feasRun_all_le (loadH travelH tipH dl : ℚ) :
    ∀ (k : ℕ) (s : SimState), feasRun loadH travelH tipH dl k s = true →
      ∀ i, i < k →
        (dispatchOne loadH travelH tipH (simSteps loadH travelH tipH i s)).2.loadEnd ≤ dl := by
  intro k
  induction k with
  | zero => intro s _ i hi; omega
  | succ k ih =>
    intro s h i hi
    rw [feasRun] at h
    by_cases hfirst : dl < (dispatchOne loadH travelH tipH s).2.loadEnd
    · rw [if_pos hfirst] at h
      exact absurd h (by simp)
    · rw [if_neg hfirst] at h
      cases i with
      | zero => exact not_lt.1 hfirst
      | succ i => exact ih (dispatchOne loadH travelH tipH s).1 h i (by omega)

theorem simSteps_ne_nil (loadH travelH tipH : ℚ) :
    ∀ (k : ℕ) (s : SimState), s.lorries ≠ [] →
      (simSteps loadH travelH tipH k s).lorries ≠ [] := by
  intro k
  induction k with
  | zero => intro s h; exact h
  | succ k ih =>
    intro s h
    rw [simSteps]
    exact ih _ (set_ne_nil h _ _)

theorem bay_mono (loadH travelH tipH : ℚ) (hlh : 0 ≤ loadH) (s : SimState) :
    ∀ (i d : ℕ), (simSteps loadH travelH tipH i s).bay ≤
      (simSteps loadH travelH tipH (i + d) s).bay := by
  intro i d
  induction d with
  | zero => exact le_refl _
  | succ d ih =>
    have hstep := bay_le_dispatch_bay loadH travelH tipH
      (simSteps loadH travelH tipH (i + d) s)
    rw [← simSteps_succ_back] at hstep
    have : i + (d + 1) = (i + d) + 1 := by omega
    rw [this]
    linarith

theorem result_totalTrips (inputs : CalculatorInputs) (adv : AdvancedSettings)
    (hnd : degenerate inputs adv = false) :
    (calculationResult inputs adv).totalTripsNeeded = tripsRequired inputs adv := by
  rcases hfind : fleetSearch inputs adv with _ | m <;>
    simp [calculationResult, hnd, hfind, feasibleResult, infeasibleResult]

theorem fleetSearch_of_result (inputs : CalculatorInputs) (adv : AdvancedSettings) (n : ℕ)
    (hnd : degenerate inputs adv = false)
    (hres : (calculationResult inputs adv).lorriesNeeded = some n) :
    fleetSearch inputs adv = some n := by
  rcases hs : fleetSearch inputs adv with _ | k
  · rw [calculationResult] at hres
    simp [hnd, hs, infeasibleResult] at hres
  · rw [calculationResult] at hres
    simp only [hnd, Bool.false_eq_true, if_false, hs, feasibleResult] at hres
    simp at hres
    subst hres
    rfl

theorem gantt_unfold (inputs : CalculatorInputs) (adv : AdvancedSettings)
    (res : CalculationResult) (n : ℕ) (hres : res.lorriesNeeded = some n) (hn : n ≠ 0) :
    ganttSchedules inputs adv res =
      ((((builderSteps (loadHours inputs) (travelHours inputs adv) (tipHours adv)
        res.totalTripsNeeded.toNat (builderInit n)).lorries.map trimLorry).map
        fun l => LorrySchedule.mk l.id l.trips).mergeSort fun a b => a.id ≤ b.id) := by
  unfold ganttSchedules
  rw [hres]
  simp [hn]

theorem final_map_id (loadH travelH tipH : ℚ) (hlh : 0 ≤ loadH) (n : ℕ) (hn : 1 ≤ n)
    (k : ℕ) :
    ((((builderSteps loadH travelH tipH k (builderInit n)).lorries.map trimLorry).map
      fun l => LorrySchedule.mk l.id l.trips).map fun s => s.id) = List.range' 1 n := by
  have inv := buildInv_steps loadH travelH tipH hlh n hn k
  rw [List.map_map, List.map_map]
  have hfun : (((fun s : LorrySchedule => s.id) ∘ fun l => LorrySchedule.mk l.id l.trips) ∘
      trimLorry) = fun l : BLorry => l.id := by
    funext l
    simp [Function.comp_def, trimLorry_id]
  rw [hfun]
  exact inv.ids

theorem mergeSort_id_of_sorted (xs : List LorrySchedule) (n : ℕ)
    (hids : xs.map (fun s => s.id) = List.range' 1 n) :
    xs.mergeSort (fun a b => a.id ≤ b.id) = xs := by
  apply List.mergeSort_of_sorted
  have h1 : List.Pairwise (· ≤ ·) (xs.map fun s => s.id) := by
    rw [hids]
    exact List.pairwise_le_range' 1 n
  rw [List.pairwise_map] at h1
  exact h1.imp fun h => decide_eq_true h

theorem gantt_eq_builder (inputs : CalculatorInputs) (adv : AdvancedSettings) (n : ℕ)
    (hnd : degenerate inputs adv = false)
    (hres : (calculationResult inputs adv).lorriesNeeded = some n) (hn : 1 ≤ n) :
    ganttSchedules inputs adv (calculationResult inputs adv) =
      (((builderSteps (loadHours inputs) (travelHours inputs adv) (tipHours adv)
        (tripsReqNat inputs adv) (builderInit n)).lorries.map trimLorry).map
        fun l => LorrySchedule.mk l.id l.trips) := by
  have hlh : 0 ≤ loadHours inputs :=
    (loadHours_pos (pos_of_not_degenerate hnd).2.2.2).le
  have htt := result_totalTrips inputs adv hnd
  rw [gantt_unfold inputs adv _ n hres (by omega), htt]
  exact mergeSort_id_of_sorted _ n
    (final_map_id (loadHours inputs) (travelHours inputs adv) (tipHours adv) hlh n hn _)

theorem loadingPhases_gantt (inputs : CalculatorInputs) (adv : AdvancedSettings) (n : ℕ)
    (hnd : degenerate inputs adv = false)
    (hres : (calculationResult inputs adv).lorriesNeeded = some n) (hn : 1 ≤ n) :
    loadingPhases (ganttSchedules inputs adv (calculationResult inputs adv)) =
      loadingPhasesB (builderSteps (loadHours inputs) (travelHours inputs adv) (tipHours adv)
        (tripsReqNat inputs adv) (builderInit n)).lorries := by
  rw [gantt_eq_builder inputs adv n hnd hres hn]
  unfold loadingPhases loadingPhasesB
  rw [List.flatMap_map, List.flatMap_map]
  apply flatMap_congr
  intro lo _
  exact trimLorry_phases lo

/-- C9: for a feasible solve with fleet size `n`, the schedule construction
yields exactly `n` vehicle entries with ids `1..n` ascending, the total trip
count equals `totalTripsNeeded`, and each vehicle's trips are contiguous
4-phase trips (loading, travel, tipping, return travel) except its last,
whose dangling return-travel phase has been dropped. -/
theorem schedule_consistency (inputs : CalculatorInputs) (adv : AdvancedSettings) (n : ℕ)
    (hnd : degenerate inputs adv = false)
    (hres : (calculationResult inputs adv).lorriesNeeded = some n) (hn : 1 ≤ n) :
    (ganttSchedules inputs adv (calculationResult inputs adv)).length = n ∧
    ((ganttSchedules inputs adv (calculationResult inputs adv)).map fun s => s.id) =
      List.range' 1 n ∧
    ((ganttSchedules inputs adv (calculationResult inputs adv)).map
      fun s => s.trips.length).sum = (calculationResult inputs adv).totalTripsNeeded.toNat ∧
    ((ganttSchedules inputs adv (calculationResult inputs adv)).all
      fun s => lorryTripsOK s.trips) = true := by
  have hlh : 0 ≤ loadHours inputs := (loadHours_pos (pos_of_not_degenerate hnd).2.2.2).le
  have hge := gantt_eq_builder inputs adv n hnd hres hn
  have inv := buildInv_steps (loadHours inputs) (travelHours inputs adv) (tipHours adv) hlh
    n hn (tripsReqNat inputs adv)
  have hlen : (builderSteps (loadHours inputs) (travelHours inputs adv) (tipHours adv)
      (tripsReqNat inputs adv) (builderInit n)).lorries.length = n := by
    have := congrArg List.length inv.ids
    simpa using this
  refine ⟨?_, ?_, ?_, ?_⟩
  · rw [hge]
    simp [hlen]
  · rw [hge]
    exact final_map_id (loadHours inputs) (travelHours inputs adv) (tipHours adv) hlh n hn _
  · rw [hge, result_totalTrips inputs adv hnd]
    rw [List.map_map, List.map_map]
    have hfun : (((fun s : LorrySchedule => s.trips.length) ∘
        fun l => LorrySchedule.mk l.id l.trips) ∘ trimLorry) =
        fun l : BLorry => l.trips.length := by
      funext l
      simp [Function.comp_def, trimLorry_trips_length]
    rw [hfun]
    exact inv.tripsCount
  · rw [hge, List.all_eq_true]
    intro sch hmem
    rcases List.mem_map.1 hmem with ⟨lo', hlo', rfl⟩
    rcases List.mem_map.1 hlo' with ⟨lo, hlo, rfl⟩
    exact lorryTripsOK_of_all4 lo (inv.shapes lo hlo)

unseal Rat.add Rat.mul Rat.inv Rat.sub in
theorem schedule_consistency_witness :
    degenerate job2 fleet1 = false ∧
    (calculationResult job2 fleet1).lorriesNeeded = some 1 ∧ 1 ≤ 1 ∧
    ((ganttSchedules job2 fleet1 (calculationResult job2 fleet1)).length = 1 ∧
     ((ganttSchedules job2 fleet1 (calculationResult job2 fleet1)).map fun s => s.id) =
       List.range' 1 1 ∧
     ((ganttSchedules job2 fleet1 (calculationResult job2 fleet1)).map
       fun s => s.trips.length).sum =
       (calculationResult job2 fleet1).totalTripsNeeded.toNat ∧
     ((ganttSchedules job2 fleet1 (calculationResult job2 fleet1)).all
       fun s => lorryTripsOK s.trips) = true) :=
  ⟨by decide, by decide, le_refl 1,
    schedule_consistency job2 fleet1 1 (by decide) (by decide) (le_refl 1)⟩

/-- C4: in every dispatch simulation, the loading bay is exclusive: at any
fleet size, earlier trips' loading intervals end before later trips' loading
intervals start, each trip's load start is the maximum of the chosen
vehicle's next-available time and the bay-free time, and in the constructed
schedule (empty when the solve is infeasible) all loading phases are pairwise
disjoint. -/
theorem loading_mutual_exclusion (inputs : CalculatorInputs) (adv : AdvancedSettings)
    (m i j : ℕ) (hnd : degenerate inputs adv = false) (hm : 1 ≤ m) (hij : i < j) :
    (solverTripAt inputs adv m i).loadEnd ≤ (solverTripAt inputs adv m j).loadStart ∧
    (solverTripAt inputs adv m i).loadStart =
      max ((solverStateAt inputs adv m i).lorries.getD
        ((solverTripAt inputs adv m i).lorryIdx) 0) (solverStateAt inputs adv m i).bay ∧
    pairwiseDisjointB (loadingPhases (ganttSchedules inputs adv
      (calculationResult inputs adv))) = true := by
  have hpos := pos_of_not_degenerate hnd
  have hlh : 0 < loadHours inputs := loadHours_pos hpos.2.2.2
  refine ⟨?_, ?_, ?_⟩
  · -- earlier load ends do not overlap later load starts
    have h1 : (solverTripAt inputs adv m i).loadEnd =
        (simSteps (loadHours inputs) (travelHours inputs adv) (tipHours adv) (i + 1)
          (initState m)).bay := by
      unfold solverTripAt solverStateAt
      exact (bay_succ_eq_loadEnd _ _ _ i _).symm
    have h2 := bay_mono (loadHours inputs) (travelHours inputs adv) (tipHours adv) hlh.le
      (initState m) (i + 1) (j - (i + 1))
    rw [show (i + 1) + (j - (i + 1)) = j from by omega] at h2
    have h3 : (simSteps (loadHours inputs) (travelHours inputs adv) (tipHours adv) j
        (initState m)).bay ≤ (solverTripAt inputs adv m j).loadStart := by
      unfold solverTripAt solverStateAt
      rw [dispatchOne_loadStart]
      exact le_max_right _ _
    rw [h1]
    exact h2.trans h3
  · -- the load start is gated by vehicle and bay availability
    have hne : (solverStateAt inputs adv m i).lorries ≠ [] := by
      unfold solverStateAt
      apply simSteps_ne_nil
      unfold initState
      intro hcon
      have := congrArg List.length hcon
      simp at this
      omega
    have hidx : (solverTripAt inputs adv m i).lorryIdx =
        (solverStateAt inputs adv m i).lorries.findIdx fun x =>
          decide (x = listMin (solverStateAt inputs adv m i).lorries) := rfl
    rw [hidx, getD_findIdx_min hne]
    unfold solverTripAt
    rw [dispatchOne_loadStart]
  · rcases hres : (calculationResult inputs adv).lorriesNeeded with _ | n
    · have hempty : ganttSchedules inputs adv (calculationResult inputs adv) = [] := by
        unfold ganttSchedules
        rw [hres]
      rw [hempty]
      rfl
    · have hsearch := fleetSearch_of_result inputs adv n hnd hres
      have hn : 1 ≤ n := (find?_range'_spec (maxLorries inputs adv) 1 n hsearch).2.1
      rw [loadingPhases_gantt inputs adv n hnd hres hn, pairwiseDisjointB_iff]
      exact (buildInv_steps (loadHours inputs) (travelHours inputs adv) (tipHours adv)
        hlh.le n hn (tripsReqNat inputs adv)).disj

unseal Rat.add Rat.mul Rat.inv Rat.sub in
theorem loading_mutual_exclusion_witness :
    degenerate job2 fleet1 = false ∧ 1 ≤ 1 ∧ 0 < 1 ∧
    ((solverTripAt job2 fleet1 1 0).loadEnd ≤ (solverTripAt job2 fleet1 1 1).loadStart ∧
     (solverTripAt job2 fleet1 1 0).loadStart =
       max ((solverStateAt job2 fleet1 1 0).lorries.getD
         ((solverTripAt job2 fleet1 1 0).lorryIdx) 0) (solverStateAt job2 fleet1 1 0).bay ∧
     pairwiseDisjointB (loadingPhases (ganttSchedules job2 fleet1
       (calculationResult job2 fleet1))) = true) :=
  ⟨by decide, le_refl 1, Nat.zero_lt_one,
    loading_mutual_exclusion job2 fleet1 1 0 1 (by decide) (le_refl 1) Nat.zero_lt_one⟩

/-- C3: for a feasible solve, the schedule builder takes exactly the solver's
dispatch decisions trip by trip: it picks the same vehicle (first index
attaining the minimum next-available time) and computes the same loading
start and end; consequently every loading phase of the built schedule ends by
`window + ε`. -/
theorem builder_matches_solver (inputs : CalculatorInputs) (adv : AdvancedSettings)
    (n k : ℕ) (hnd : degenerate inputs adv = false)
    (hres : (calculationResult inputs adv).lorriesNeeded = some n) (hn : 1 ≤ n)
    (_hk : k < tripsReqNat inputs adv) :
    bChoiceAt inputs adv n k = (solverTripAt inputs adv n k).lorryIdx ∧
    bLoadStartAt inputs adv n k = (solverTripAt inputs adv n k).loadStart ∧
    bLoadEndAt inputs adv n k = (solverTripAt inputs adv n k).loadEnd ∧
    ((loadingPhases (ganttSchedules inputs adv (calculationResult inputs adv))).all
      fun p => decide (p.finish ≤ deadline inputs)) = true := by
  have hpos := pos_of_not_degenerate hnd
  have hlh : 0 < loadHours inputs := loadHours_pos hpos.2.2.2
  have hbinit := builderInit_ne_nil hn
  obtain ⟨hproj, hneK⟩ := projB_steps (loadHours inputs) (travelHours inputs adv)
    (tipHours adv) k (builderInit n) hbinit
  rw [projB_init] at hproj
  have hstate : solverStateAt inputs adv n k = projB (builderStateAt inputs adv n k) := by
    unfold solverStateAt builderStateAt
    exact hproj.symm
  have hneK' : (builderStateAt inputs adv n k).lorries ≠ [] := hneK
  have hstart : bLoadStartAt inputs adv n k = (solverTripAt inputs adv n k).loadStart := by
    unfold bLoadStartAt bChoiceAt solverTripAt
    rw [hstate, chosen_time hneK', dispatchOne_loadStart]
    rfl
  refine ⟨?_, hstart, ?_, ?_⟩
  · unfold bChoiceAt solverTripAt
    rw [hstate]
    exact (bChoice_eq_proj (builderStateAt inputs adv n k).lorries).symm
  · unfold bLoadEndAt
    rw [hstart]
    rfl
  · have hsearch := fleetSearch_of_result inputs adv n hnd hres
    have hfeas : feasible inputs adv n = true := List.find?_some hsearch
    unfold feasible at hfeas
    obtain ⟨hprojT, hneT⟩ := projB_steps (loadHours inputs) (travelHours inputs adv)
      (tipHours adv) (tripsReqNat inputs adv) (builderInit n) hbinit
    rw [projB_init] at hprojT
    have invT := buildInv_steps (loadHours inputs) (travelHours inputs adv) (tipHours adv)
      hlh.le n hn (tripsReqNat inputs adv)
    have hdl : 0 < deadline inputs := by
      have := hpos.2.2.1
      unfold deadline
      linarith
    have hbayle : (simSteps (loadHours inputs) (travelHours inputs adv) (tipHours adv)
        (tripsReqNat inputs adv) (initState n)).bay ≤ deadline inputs := by
      cases hT : tripsReqNat inputs adv with
      | zero =>
        show (initState n).bay ≤ deadline inputs
        exact hdl.le
      | succ T =>
        rw [bay_succ_eq_loadEnd]
        rw [hT] at hfeas
        exact feasRun_all_le (loadHours inputs) (travelHours inputs adv) (tipHours adv)
          (deadline inputs) (T + 1) (initState n) hfeas T (by omega)
    have hbayB : (builderSteps (loadHours inputs) (travelHours inputs adv) (tipHours adv)
        (tripsReqNat inputs adv) (builderInit n)).bay =
        (simSteps (loadHours inputs) (travelHours inputs adv) (tipHours adv)
          (tripsReqNat inputs adv) (initState n)).bay :=
      congrArg SimState.bay hprojT
    rw [loadingPhases_gantt inputs adv n hnd hres hn, List.all_eq_true]
    intro p hp
    apply decide_eq_true
    calc p.finish ≤ (builderSteps (loadHours inputs) (travelHours inputs adv) (tipHours adv)
        (tripsReqNat inputs adv) (builderInit n)).bay := invT.bayBound p hp
      _ = (simSteps (loadHours inputs) (travelHours inputs adv) (tipHours adv)
          (tripsReqNat inputs adv) (initState n)).bay := hbayB
      _ ≤ deadline inputs := hbayle

unseal Rat.add Rat.mul Rat.inv Rat.sub in
theorem builder_matches_solver_witness :
    degenerate job2 fleet1 = false ∧
    (calculationResult job2 fleet1).lorriesNeeded = some 1 ∧ 1 ≤ 1 ∧
    0 < tripsReqNat job2 fleet1 ∧
    (bChoiceAt job2 fleet1 1 0 = (solverTripAt job2 fleet1 1 0).lorryIdx ∧
     bLoadStartAt job2 fleet1 1 0 = (solverTripAt job2 fleet1 1 0).loadStart ∧
     bLoadEndAt job2 fleet1 1 0 = (solverTripAt job2 fleet1 1 0).loadEnd ∧
     ((loadingPhases (ganttSchedules job2 fleet1 (calculationResult job2 fleet1))).all
       fun p => decide (p.finish ≤ deadline job2)) = true) :=
  ⟨by decide, by decide, le_refl 1, by decide,
    builder_matches_solver job2 fleet1 1 0 (by decide) (by decide) (le_refl 1) (by decide)⟩

end Tipper
